import Mathlib

/-!
Verification of the ainp envelope-identity core (Python SDK `ainp_sdk`):
canonical JSON serialization of envelopes (`envelope.canonicalize_envelope`),
Ed25519 signing/verification with base64 signatures (`crypto.sign_envelope`,
`crypto.verify_envelope_signature`), and did:key derivation from a raw public
key (`did.did_from_public_key`, `did._encode_base58btc`).

Python strings are modelled as Lean `String` (sequences of Unicode scalar
values); byte strings as `List Nat` with entries below 256 where relevant.
Python exceptions are modelled by `Except PyError`; `try/except` blocks become
explicit matches on the error value.  The external Ed25519 primitive (PyNaCl)
is modelled as a structure `SigScheme` carrying the library's documented
guarantees; everything else is translated directly from the source.
-/

/-- Python string comparison (`sorted`, `<` on `str`) is lexicographic on
Unicode code points.  `lexLe` is that order on code-point lists. -/
def lexLe : List Nat → List Nat → Bool
  | [], _ => true
  | _ :: _, [] => false
  | a :: as, b :: bs => if a < b then true else if b < a then false else lexLe as bs

/-- Strict lexicographic order on lists of naturals. -/
def lexLt : List Nat → List Nat → Bool
  | [], [] => false
  | [], _ :: _ => true
  | _ :: _, [] => false
  | a :: as, b :: bs => if a < b then true else if b < a then false else lexLt as bs

theorem lexLe_nil_left (l : List Nat) : lexLe [] l = true := by
  cases l <;> rfl

theorem lexLe_refl : ∀ l : List Nat, lexLe l l = true
  | [] => rfl
  | a :: as => by simp [lexLe, lexLe_refl as]

theorem lexLt_le : ∀ a b : List Nat, lexLt a b = true → lexLe a b = true
  | [], [], h => by simp [lexLt] at h
  | [], _ :: _, _ => rfl
  | _ :: _, [], h => by simp [lexLt] at h
  | a :: as, b :: bs, h => by
    by_cases h1 : a < b
    · simp [lexLe, h1]
    · by_cases h2 : b < a
      · simp [lexLt, h1, h2] at h
      · simp only [lexLt, if_neg h1, if_neg h2] at h
        simp only [lexLe, if_neg h1, if_neg h2]
        exact lexLt_le as bs h

/-- Lexicographic comparison only looks past a shared prefix. -/
theorem lexLe_append_left : ∀ (p a b : List Nat), lexLe (p ++ a) (p ++ b) = lexLe a b
  | [], _, _ => rfl
  | x :: p, a, b => by simp [lexLe, lexLe_append_left p a b]

/-- `u` is strictly below `v` at some position inside a shared prefix. -/
def StrictAt (u v : List Nat) : Prop :=
  ∃ p a x b y, u = p ++ a :: x ∧ v = p ++ b :: y ∧ a < b

theorem strictAt_head {a b : Nat} (x y : List Nat) (h : a < b) :
    StrictAt (a :: x) (b :: y) :=
  ⟨[], a, x, b, y, rfl, rfl, h⟩

theorem strictAt_cons {u v : List Nat} (c : Nat) (h : StrictAt u v) :
    StrictAt (c :: u) (c :: v) := by
  obtain ⟨p, a, x, b, y, hu, hv, hab⟩ := h
  exact ⟨c :: p, a, x, b, y, by simp [hu], by simp [hv], hab⟩

theorem lexLe_of_strictAt {u v : List Nat} (m n : List Nat) (h : StrictAt u v) :
    lexLe (u ++ m) (v ++ n) = true := by
  obtain ⟨p, a, x, b, y, hu, hv, hab⟩ := h
  subst hu; subst hv
  induction p with
  | nil => simp [lexLe, hab]
  | cons c p ih => simpa [lexLe] using ih

theorem not_lexLe_of_strictAt {u v : List Nat} (m n : List Nat) (h : StrictAt u v) :
    lexLe (v ++ m) (u ++ n) = false := by
  obtain ⟨p, a, x, b, y, hu, hv, hab⟩ := h
  subst hu; subst hv
  induction p with
  | nil => simp [lexLe, hab, Nat.lt_asymm hab]
  | cons c p ih => simpa [lexLe] using ih

/-- The UTF-8 encoding of a Unicode code point, as a list of byte values.
This is the byte encoding the spec refers to when it orders keys
"lexicographically by exact byte value". -/
def utf8Nat (v : Nat) : List Nat :=
  if v < 128 then [v]
  else if v < 2048 then [192 + v / 64, 128 + v % 64]
  else if v < 65536 then [224 + v / 4096, 128 + v / 64 % 64, 128 + v % 64]
  else [240 + v / 262144, 128 + v / 4096 % 64, 128 + v / 64 % 64, 128 + v % 64]

theorem utf8Nat_ne_nil (v : Nat) : utf8Nat v ≠ [] := by
  unfold utf8Nat
  split <;> [skip; split] <;> [simp; skip; split] <;> simp

/-- UTF-8 is order preserving: a smaller code point encodes to a
byte sequence that is strictly smaller at some shared-prefix position. -/
theorem utf8Nat_strictAt {a b : Nat} (h : a < b) : StrictAt (utf8Nat a) (utf8Nat b) := by
  unfold utf8Nat
  split
  · -- a one-byte
    split
    · exact strictAt_head _ _ h
    · split
      · exact strictAt_head _ _ (by omega)
      · split
        · exact strictAt_head _ _ (by omega)
        · exact strictAt_head _ _ (by omega)
  · split
    · -- a two-byte
      split
      · omega
      · split
        · -- both two-byte
          rcases Nat.lt_or_ge (a / 64) (b / 64) with hq | hq
          · exact strictAt_head _ _ (by omega)
          · have hq2 : a / 64 = b / 64 := by omega
            rw [hq2]
            exact strictAt_cons _ (strictAt_head _ _ (by omega))
        · split
          · exact strictAt_head _ _ (by omega)
          · exact strictAt_head _ _ (by omega)
    · split
      · -- a three-byte
        split
        · omega
        · split
          · omega
          · split
            · -- both three-byte
              rcases Nat.lt_or_ge (a / 4096) (b / 4096) with hq | hq
              · exact strictAt_head _ _ (by omega)
              · have hq2 : a / 4096 = b / 4096 := by omega
                rw [hq2]
                rcases Nat.lt_or_ge (a / 64 % 64) (b / 64 % 64) with hm | hm
                · exact strictAt_cons _ (strictAt_head _ _ (by omega))
                · have hm2 : a / 64 % 64 = b / 64 % 64 := by omega
                  rw [hm2]
                  exact strictAt_cons _ (strictAt_cons _ (strictAt_head _ _ (by omega)))
            · exact strictAt_head _ _ (by omega)
      · -- a four-byte
        split
        · omega
        · split
          · omega
          · split
            · omega
            · -- both four-byte
              rcases Nat.lt_or_ge (a / 262144) (b / 262144) with hq | hq
              · exact strictAt_head _ _ (by omega)
              · have hq2 : a / 262144 = b / 262144 := by omega
                rw [hq2]
                rcases Nat.lt_or_ge (a / 4096 % 64) (b / 4096 % 64) with hm | hm
                · exact strictAt_cons _ (strictAt_head _ _ (by omega))
                · have hm2 : a / 4096 % 64 = b / 4096 % 64 := by omega
                  rw [hm2]
                  rcases Nat.lt_or_ge (a / 64 % 64) (b / 64 % 64) with hk | hk
                  · exact strictAt_cons _ (strictAt_cons _ (strictAt_head _ _ (by omega)))
                  · have hk2 : a / 64 % 64 = b / 64 % 64 := by omega
                    rw [hk2]
                    exact strictAt_cons _ (strictAt_cons _ (strictAt_cons _
                      (strictAt_head _ _ (by omega))))

/-- The UTF-8 bytes of a Lean/Python string. -/
def utf8Bytes (s : String) : List Nat :=
  (s.data.map (fun c => utf8Nat c.toNat)).flatten

theorem char_toNat_inj {c d : Char} (h : c.toNat = d.toNat) : c = d :=
  Char.ext (UInt32.ext h)

/-- Code-point order and UTF-8 byte order agree on lists of code points. -/
theorem lexLe_codepoints_eq_bytes :
    ∀ cs ds : List Char,
      lexLe (cs.map Char.toNat) (ds.map Char.toNat) =
      lexLe ((cs.map (fun c => utf8Nat c.toNat)).flatten)
            ((ds.map (fun c => utf8Nat c.toNat)).flatten)
  | [], [] => rfl
  | [], d :: ds => by
    obtain ⟨x, t, hx⟩ : ∃ x t, utf8Nat d.toNat = x :: t := by
      rcases he : utf8Nat d.toNat with _ | ⟨x, t⟩
      · exact absurd he (utf8Nat_ne_nil _)
      · exact ⟨x, t, rfl⟩
    simp [lexLe, hx]
  | c :: cs, [] => by
    obtain ⟨x, t, hx⟩ : ∃ x t, utf8Nat c.toNat = x :: t := by
      rcases he : utf8Nat c.toNat with _ | ⟨x, t⟩
      · exact absurd he (utf8Nat_ne_nil _)
      · exact ⟨x, t, rfl⟩
    simp [lexLe, hx]
  | c :: cs, d :: ds => by
    rcases Nat.lt_trichotomy c.toNat d.toNat with hlt | heq | hgt
    · have h1 : lexLe (c.toNat :: cs.map Char.toNat) (d.toNat :: ds.map Char.toNat) = true := by
        simp [lexLe, hlt]
      have h2 := lexLe_of_strictAt
        ((cs.map (fun c => utf8Nat c.toNat)).flatten)
        ((ds.map (fun c => utf8Nat c.toNat)).flatten)
        (utf8Nat_strictAt hlt)
      simp only [List.map_cons, List.flatten_cons, h1, h2]
    · have hc : c = d := char_toNat_inj heq
      subst hc
      have h1 : lexLe (c.toNat :: cs.map Char.toNat) (c.toNat :: ds.map Char.toNat) =
          lexLe (cs.map Char.toNat) (ds.map Char.toNat) := by
        simp [lexLe]
      simp only [List.map_cons, List.flatten_cons, h1,
        lexLe_append_left (utf8Nat c.toNat)]
      exact lexLe_codepoints_eq_bytes cs ds
    · have h1 : lexLe (c.toNat :: cs.map Char.toNat) (d.toNat :: ds.map Char.toNat) = false := by
        simp [lexLe, Nat.lt_asymm hgt, Nat.le_of_lt hgt, hgt]
      have h2 := not_lexLe_of_strictAt
        ((cs.map (fun c => utf8Nat c.toNat)).flatten)
        ((ds.map (fun c => utf8Nat c.toNat)).flatten)
        (utf8Nat_strictAt hgt)
      simp only [List.map_cons, List.flatten_cons, h1, h2]

/-- Python's string comparison used by `sorted(...)` / `sort_keys=True`:
lexicographic on code points. -/
def pyStrLe (s t : String) : Bool :=
  lexLe (s.data.map Char.toNat) (t.data.map Char.toNat)

/-- Strict version of `pyStrLe`. -/
def pyStrLt (s t : String) : Bool :=
  lexLt (s.data.map Char.toNat) (t.data.map Char.toNat)

/-- Key order prescribed by the spec: lexicographic by exact UTF-8 byte value. -/
def byteLe (s t : String) : Bool :=
  lexLe (utf8Bytes s) (utf8Bytes t)

/-- Python's code-point comparison and the spec's byte-value comparison are
the same relation on strings: UTF-8 preserves lexicographic order. -/
theorem pyStrLe_eq_byteLe : pyStrLe = byteLe := by
  funext s t
  exact lexLe_codepoints_eq_bytes s.data t.data

/-- JSON values as Python's `json.dumps` receives them in this SDK: strings,
ints, bools, `None`, lists and string-keyed dicts (dicts are association
lists here).  Floats never occur in the envelope's declared field types. -/
inductive Json where
  | str (s : String)
  | int (n : Int)
  | bool (b : Bool)
  | null
  | arr (xs : List Json)
  | obj (kvs : List (String × Json))

/-- Double quote. -/
def quoteC : Char := '"'

/-- Backslash. -/
def bslashC : Char := '\\'

/-- Opening curly bracket (codepoint 123). -/
def lbraceC : Char := Char.ofNat 123

/-- Closing curly bracket (codepoint 125). -/
def rbraceC : Char := Char.ofNat 125

/-- Lowercase hex digit, as used by Python's `\uXXXX` escapes. -/
def hexDig : Nat → Char
  | 0 => '0' | 1 => '1' | 2 => '2' | 3 => '3' | 4 => '4' | 5 => '5' | 6 => '6'
  | 7 => '7' | 8 => '8' | 9 => '9' | 10 => 'a' | 11 => 'b' | 12 => 'c'
  | 13 => 'd' | 14 => 'e' | _ => 'f'

/-- Four lowercase hex digits, most significant first. -/
def hex4 (n : Nat) : List Char :=
  [hexDig (n / 4096 % 16), hexDig (n / 256 % 16), hexDig (n / 16 % 16), hexDig (n % 16)]

/-- The short escape code Python's encoder uses for a character, if any
(the `ESCAPE_DCT` shortcuts of `json/encoder.py`). -/
def escCode (c : Char) : Option Char :=
  if c = quoteC then some quoteC
  else if c = bslashC then some bslashC
  else if c.toNat = 10 then some 'n'
  else if c.toNat = 13 then some 'r'
  else if c.toNat = 9 then some 't'
  else if c.toNat = 8 then some 'b'
  else if c.toNat = 12 then some 'f'
  else none

/-- How Python's `json.dumps` (default `ensure_ascii=True`) renders one
character inside a string literal: shortcut escapes, printable ASCII verbatim,
`\uXXXX` for everything else, with a surrogate pair for astral characters. -/
def escChar (c : Char) : List Char :=
  match escCode c with
  | some k => [bslashC, k]
  | none =>
    if 32 ≤ c.toNat ∧ c.toNat ≤ 126 then [c]
    else if c.toNat < 65536 then bslashC :: 'u' :: hex4 c.toNat
    else bslashC :: 'u' :: hex4 (55296 + (c.toNat - 65536) / 1024) ++
         bslashC :: 'u' :: hex4 (56320 + (c.toNat - 65536) % 1024)

/-- The escaped body of a JSON string literal. -/
def escList (cs : List Char) : List Char := (cs.map escChar).flatten

/-- A complete JSON string literal: quote, escaped body, quote. -/
def encStr (s : String) : List Char := quoteC :: escList s.data ++ [quoteC]

/-- Decimal digits of a natural number, most significant first,
`"0"` for zero — Python's `repr` for a nonnegative int. -/
def natChars (n : Nat) : List Char :=
  if n = 0 then ['0'] else ((Nat.digits 10 n).reverse).map Nat.digitChar

/-- Python's `repr` of an int: optional minus sign, then decimal digits. -/
def intChars : Int → List Char
  | .ofNat m => natChars m
  | .negSucc m => '-' :: natChars (m + 1)

mutual

/-- Serialization of an (already key-sorted) JSON value with the compact
separators `(',', ':')`, exactly as `json.dumps` emits it. -/
def dumpsRaw : Json → List Char
  | .str s => encStr s
  | .int n => intChars n
  | .bool b => if b then ['t', 'r', 'u', 'e'] else ['f', 'a', 'l', 's', 'e']
  | .null => ['n', 'u', 'l', 'l']
  | .arr xs => '[' :: dumpsArr xs ++ [']']
  | .obj kvs => lbraceC :: dumpsObj kvs ++ [rbraceC]

/-- Array elements joined by commas. -/
def dumpsArr : List Json → List Char
  | [] => []
  | [x] => dumpsRaw x
  | x :: y :: xs => dumpsRaw x ++ ',' :: dumpsArr (y :: xs)

/-- Object entries `"key":value` joined by commas. -/
def dumpsObj : List (String × Json) → List Char
  | [] => []
  | [(k, v)] => encStr k ++ ':' :: dumpsRaw v
  | (k, v) :: p :: kvs => encStr k ++ ':' :: dumpsRaw v ++ ',' :: dumpsObj (p :: kvs)

end

/-- Insert an entry into a key-sorted association list (insertion sort step).
Python's `sorted` over a dict's items with unique keys produces the same
key-ordered result as this sort. -/
def insertKV (cmp : String → String → Bool) (p : String × Json) :
    List (String × Json) → List (String × Json)
  | [] => [p]
  | q :: qs => if cmp p.1 q.1 then p :: q :: qs else q :: insertKV cmp p qs

/-- Sort an association list by key under the comparison `cmp`. -/
def sortKV (cmp : String → String → Bool) : List (String × Json) → List (String × Json)
  | [] => []
  | p :: ps => insertKV cmp p (sortKV cmp ps)

mutual

/-- The recursive key-sorting that `sort_keys=True` applies to every object
before serialization. -/
def sortJson (cmp : String → String → Bool) : Json → Json
  | .str s => .str s
  | .int n => .int n
  | .bool b => .bool b
  | .null => .null
  | .arr xs => .arr (sortJsonArr cmp xs)
  | .obj kvs => .obj (sortKV cmp (sortJsonObj cmp kvs))

/-- `sortJson` mapped over array elements. -/
def sortJsonArr (cmp : String → String → Bool) : List Json → List Json
  | [] => []
  | x :: xs => sortJson cmp x :: sortJsonArr cmp xs

/-- `sortJson` mapped over object values. -/
def sortJsonObj (cmp : String → String → Bool) :
    List (String × Json) → List (String × Json)
  | [] => []
  | (k, v) :: kvs => (k, sortJson cmp v) :: sortJsonObj cmp kvs

end

/-- `json.dumps(value, separators=(',', ':'), sort_keys=True)`:
sort every object's keys (Python compares keys with code-point order),
then print compactly. -/
def dumps (cmp : String → String → Bool) (v : Json) : List Char :=
  dumpsRaw (sortJson cmp v)

/-- The envelope dataclass `AINPEnvelope` of `types.py`. -/
structure AINPEnvelope where
  id : String
  trace_id : String
  from_did : String
  to_did : Option String
  msg_type : String
  ttl : Int
  timestamp : Int
  sig : String
  payload : List (String × Json)

/-- `None` becomes JSON `null`, a string stays a string. -/
def optJson : Option String → Json
  | none => .null
  | some s => .str s

/-- `env.__dict__` of the dataclass: every field, in declaration order. -/
def envDictFull (e : AINPEnvelope) : List (String × Json) :=
  [("id", .str e.id), ("trace_id", .str e.trace_id), ("from_did", .str e.from_did),
   ("to_did", optJson e.to_did), ("msg_type", .str e.msg_type), ("ttl", .int e.ttl),
   ("timestamp", .int e.timestamp), ("sig", .str e.sig), ("payload", .obj e.payload)]

/-- `d.pop('sig', None)` on a copy of the dict: drop the entry with that key. -/
def removeKey (d : List (String × Json)) (k : String) : List (String × Json) :=
  d.filter (fun kv => kv.1 != k)

/-- `canonicalize_envelope` of `envelope.py`: copy `env.__dict__`, pop `sig`,
and `json.dumps` the rest with sorted keys and compact separators. -/
def canonicalize_envelope (e : AINPEnvelope) : String :=
  ⟨dumps pyStrLe (.obj (removeKey (envDictFull e) "sig"))⟩

/-- Modelled from the spec (section 4.1): serialize the envelope's fields as a
JSON object whose keys are ordered lexicographically by exact UTF-8 byte
value, with the `sig` key excluded entirely, compact separators, integers in
decimal, nested objects recursively key-sorted and arrays preserving order. -/
def canonicalizeSpec (e : AINPEnvelope) : String :=
  ⟨dumps byteLe (.obj
    [("id", .str e.id), ("trace_id", .str e.trace_id), ("from_did", .str e.from_did),
     ("to_did", optJson e.to_did), ("msg_type", .str e.msg_type), ("ttl", .int e.ttl),
     ("timestamp", .int e.timestamp), ("payload", .obj e.payload)])⟩

/-- Claim C2: for every envelope, `canonicalize_envelope` serializes the
envelope's fields as a JSON object with keys ordered lexicographically by
exact byte value, the `sig` key excluded entirely, compact separators with no
insignificant whitespace, integers in decimal, nested objects recursively
key-sorted and arrays preserving input order — i.e. it coincides with the
serialization `canonicalizeSpec` built from the spec's words. -/
theorem C2_canonicalize_refines_spec (e : AINPEnvelope) :
    canonicalize_envelope e = canonicalizeSpec e := by
  unfold canonicalize_envelope canonicalizeSpec
  rw [pyStrLe_eq_byteLe]
  rfl

/-- Claim C6: two envelopes that agree on every field except possibly `sig`
have the same canonical form; `sig` never influences canonicalization. -/
theorem C6_sig_not_in_canonical (e1 e2 : AINPEnvelope)
    (hid : e1.id = e2.id) (htr : e1.trace_id = e2.trace_id)
    (hfr : e1.from_did = e2.from_did) (hto : e1.to_did = e2.to_did)
    (hms : e1.msg_type = e2.msg_type) (httl : e1.ttl = e2.ttl)
    (hts : e1.timestamp = e2.timestamp) (hpl : e1.payload = e2.payload) :
    canonicalize_envelope e1 = canonicalize_envelope e2 := by
  cases e1; cases e2
  simp only at hid htr hfr hto hms httl hts hpl
  subst hid; subst htr; subst hfr; subst hto; subst hms; subst httl; subst hts; subst hpl
  rfl

/-- Witness for C6: two concrete envelopes differing only in `sig`
canonicalize identically. -/
theorem C6_sig_not_in_canonical_witness :
    canonicalize_envelope
      { id := "a", trace_id := "b", from_did := "c", to_did := none,
        msg_type := "INTENT", ttl := 60, timestamp := 1, sig := "SIGONE",
        payload := [] } =
    canonicalize_envelope
      { id := "a", trace_id := "b", from_did := "c", to_did := none,
        msg_type := "INTENT", ttl := 60, timestamp := 1, sig := "SIGTWO",
        payload := [] } :=
  C6_sig_not_in_canonical _ _ rfl rfl rfl rfl rfl rfl rfl rfl

/-- Python exception classes relevant to `crypto.py`: `BadSignatureError`
(from `nacl.exceptions`), `ValueError` (which `binascii.Error`, Unicode
encode errors and nacl's size checks subclass), `TypeError`, and a catch-all
for anything else. -/
inductive PyError where
  | badSignature
  | valueError
  | typeError
  | otherError
deriving DecidableEq

/-- The standard base64 alphabet. -/
def b64Alphabet : List Char :=
  "ABCDEFGHIJKLMNOPQRSTUVWXYZabcdefghijklmnopqrstuvwxyz0123456789+/".data

/-- Character for a 6-bit group. -/
def tbl64 (n : Nat) : Char := b64Alphabet.getD n '?'

/-- Index of a character in the base64 alphabet, if present. -/
def b64val (c : Char) : Option Nat := b64Alphabet.findIdx? (· == c)

/-- `base64.b64encode`: 3-byte groups become 4 characters; a trailing group
of 1 or 2 bytes is padded with `'='`. -/
def b64encodeBytes : List Nat → List Char
  | [] => []
  | [b1] => [tbl64 (b1 / 4), tbl64 (b1 % 4 * 16), '=', '=']
  | [b1, b2] => [tbl64 (b1 / 4), tbl64 (b1 % 4 * 16 + b2 / 16), tbl64 (b2 % 16 * 4), '=']
  | b1 :: b2 :: b3 :: rest =>
    tbl64 (b1 / 4) :: tbl64 (b1 % 4 * 16 + b2 / 16) :: tbl64 (b2 % 16 * 4 + b3 / 64) ::
    tbl64 (b3 % 64) :: b64encodeBytes rest

/-- `base64.b64encode(...).decode('ascii')`. -/
def b64encode (bs : List Nat) : String := ⟨b64encodeBytes bs⟩

/-- Decode groups of four base64 characters; `'='` padding is only legal at
the very end, and a leftover group of fewer than four characters is the
`binascii.Error` ("incorrect padding") case, a `ValueError`. -/
def b64decodeChars : List Char → Except PyError (List Nat)
  | [] => .ok []
  | c1 :: c2 :: c3 :: c4 :: rest =>
    match b64val c1, b64val c2 with
    | some v1, some v2 =>
      if c3 = '=' then
        if c4 = '=' ∧ rest = [] then .ok [v1 * 4 + v2 / 16] else .error .valueError
      else
        match b64val c3 with
        | some v3 =>
          if c4 = '=' then
            if rest = [] then .ok [v1 * 4 + v2 / 16, v2 % 16 * 16 + v3 / 4]
            else .error .valueError
          else
            match b64val c4 with
            | some v4 =>
              (b64decodeChars rest).map
                (fun bs => (v1 * 4 + v2 / 16) :: (v2 % 16 * 16 + v3 / 4) :: (v3 % 4 * 64 + v4) :: bs)
            | none => .error .valueError
        | none => .error .valueError
    | _, _ => .error .valueError
  | _ => .error .valueError

/-- `base64.b64decode` applied to a `str`: the implicit ASCII encoding fails
with a `ValueError` on non-ASCII input; characters outside the alphabet are
discarded by `binascii.a2b_base64`; then 4-character groups are decoded. -/
def b64decode (s : String) : Except PyError (List Nat) :=
  if s.data.all (fun c => c.toNat < 128) then
    b64decodeChars (s.data.filter (fun c => (b64val c).isSome || c = '='))
  else .error .valueError

/-- The Ed25519 primitive consumed from PyNaCl, abstracted as exactly the
guarantees the library documents and the SDK uses: a verify key derived from
a 32-byte seed is 32 raw bytes, signatures are byte strings, and a signature
produced with a seed verifies under the derived public key. -/
structure SigScheme where
  pubOf : List Nat → List Nat
  sign : List Nat → List Nat → List Nat
  verify : List Nat → List Nat → List Nat → Bool
  pubOf_length : ∀ s, s.length = 32 → (pubOf s).length = 32
  sign_byte : ∀ s m b, b ∈ sign s m → b < 256
  verify_sign : ∀ s m, s.length = 32 → verify (pubOf s) m (sign s m) = true

/-- `generate_keypair` of `crypto.py` draws a fresh 32-byte seed and returns
it with the derived raw public key; its possible outputs are exactly the
pairs `(priv, pubOf priv)` with `priv` of length 32. -/
def GeneratedKeypair (sch : SigScheme) (priv pub : List Nat) : Prop :=
  priv.length = 32 ∧ pub = sch.pubOf priv

/-- `sign_envelope` of `crypto.py`: `SigningKey(private_key)` (nacl raises a
`ValueError` unless the seed is exactly 32 bytes), sign the UTF-8 canonical
bytes, base64-encode the 64-byte signature as an ASCII string. -/
def sign_envelope (sch : SigScheme) (env : AINPEnvelope) (private_key : List Nat) :
    Except PyError String :=
  if private_key.length = 32 then
    .ok (b64encode (sch.sign private_key (utf8Bytes (canonicalize_envelope env))))
  else .error .valueError

/-- The body of `verify_envelope_signature`'s `try` block:
`VerifyKey(public_key)` (ValueError unless 32 bytes), recompute the canonical
message bytes, `b64decode(signature)`, then `vk.verify` which raises
`BadSignatureError` on any cryptographic failure. -/
def verifyAttempt (sch : SigScheme) (env : AINPEnvelope) (signature : String)
    (public_key : List Nat) : Except PyError Bool :=
  if public_key.length = 32 then
    match b64decode signature with
    | .error e => .error e
    | .ok sig =>
      if sch.verify public_key (utf8Bytes (canonicalize_envelope env)) sig
      then .ok true
      else .error .badSignature
  else .error .valueError

/-- `verify_envelope_signature` of `crypto.py`: the `try` body above with
`except (BadSignatureError, ValueError, TypeError): return False`. -/
def verify_envelope_signature (sch : SigScheme) (env : AINPEnvelope)
    (signature : String) (public_key : List Nat) : Except PyError Bool :=
  match verifyAttempt sch env signature public_key with
  | .ok b => .ok b
  | .error .badSignature => .ok false
  | .error .valueError => .ok false
  | .error .typeError => .ok false
  | .error e => .error e

theorem b64val_tbl64 : ∀ n, n < 64 → b64val (tbl64 n) = some n := by decide

theorem tbl64_ne_pad : ∀ n, n < 64 → tbl64 n ≠ '=' := by decide

theorem tbl64_ascii : ∀ n, n < 64 → (tbl64 n).toNat < 128 := by decide

theorem b64decodeChars_encodeBytes :
    ∀ bs, (∀ b ∈ bs, b < 256) → b64decodeChars (b64encodeBytes bs) = .ok bs
  | [], _ => rfl
  | [b1], h => by
    have hb1 : b1 < 256 := h b1 (by simp)
    have e1 := b64val_tbl64 (b1 / 4) (by omega)
    have e2 := b64val_tbl64 (b1 % 4 * 16) (by omega)
    simp [b64encodeBytes, b64decodeChars, e1, e2]
    all_goals omega
  | [b1, b2], h => by
    have hb1 : b1 < 256 := h b1 (by simp)
    have hb2 : b2 < 256 := h b2 (by simp)
    have e1 := b64val_tbl64 (b1 / 4) (by omega)
    have e2 := b64val_tbl64 (b1 % 4 * 16 + b2 / 16) (by omega)
    have e3 := b64val_tbl64 (b2 % 16 * 4) (by omega)
    have ne3 := tbl64_ne_pad (b2 % 16 * 4) (by omega)
    simp [b64encodeBytes, b64decodeChars, e1, e2, e3, ne3]
    constructor
    all_goals omega
  | b1 :: b2 :: b3 :: rest, h => by
    have hb1 : b1 < 256 := h b1 (by simp)
    have hb2 : b2 < 256 := h b2 (by simp)
    have hb3 : b3 < 256 := h b3 (by simp)
    have ih := b64decodeChars_encodeBytes rest (fun b hb => h b (by simp [hb]))
    have e1 := b64val_tbl64 (b1 / 4) (by omega)
    have e2 := b64val_tbl64 (b1 % 4 * 16 + b2 / 16) (by omega)
    have e3 := b64val_tbl64 (b2 % 16 * 4 + b3 / 64) (by omega)
    have e4 := b64val_tbl64 (b3 % 64) (by omega)
    have ne3 := tbl64_ne_pad (b2 % 16 * 4 + b3 / 64) (by omega)
    have ne4 := tbl64_ne_pad (b3 % 64) (by omega)
    have a1 : b1 / 4 * 4 + (b1 % 4 * 16 + b2 / 16) / 16 = b1 := by omega
    have a2 : (b1 % 4 * 16 + b2 / 16) % 16 * 16 + (b2 % 16 * 4 + b3 / 64) / 4 = b2 := by omega
    have a3 : (b2 % 16 * 4 + b3 / 64) % 4 * 64 + b3 % 64 = b3 := by omega
    simp [b64encodeBytes, b64decodeChars, e1, e2, e3, e4, ne3, ne4, ih, Except.map, a1, a2, a3]

theorem kept_tbl64 {n : Nat} (h : n < 64) :
    (tbl64 n).toNat < 128 ∧ ((b64val (tbl64 n)).isSome || tbl64 n = '=') = true :=
  ⟨tbl64_ascii n h, by simp [b64val_tbl64 n h]⟩

theorem b64encodeBytes_kept :
    ∀ bs, (∀ b ∈ bs, b < 256) → ∀ c ∈ b64encodeBytes bs,
      c.toNat < 128 ∧ ((b64val c).isSome || c = '=') = true
  | [], _ => by simp [b64encodeBytes]
  | [b1], h => by
    have hb1 : b1 < 256 := h b1 (by simp)
    intro c hc
    simp only [b64encodeBytes, List.mem_cons, List.not_mem_nil, or_false] at hc
    rcases hc with rfl | rfl | rfl | rfl
    · exact kept_tbl64 (by omega)
    · exact kept_tbl64 (by omega)
    · exact ⟨by decide, by decide⟩
    · exact ⟨by decide, by decide⟩
  | [b1, b2], h => by
    have hb1 : b1 < 256 := h b1 (by simp)
    have hb2 : b2 < 256 := h b2 (by simp)
    intro c hc
    simp only [b64encodeBytes, List.mem_cons, List.not_mem_nil, or_false] at hc
    rcases hc with rfl | rfl | rfl | rfl
    · exact kept_tbl64 (by omega)
    · exact kept_tbl64 (by omega)
    · exact kept_tbl64 (by omega)
    · exact ⟨by decide, by decide⟩
  | b1 :: b2 :: b3 :: rest, h => by
    have hb1 : b1 < 256 := h b1 (by simp)
    have hb2 : b2 < 256 := h b2 (by simp)
    have hb3 : b3 < 256 := h b3 (by simp)
    have ih := b64encodeBytes_kept rest (fun b hb => h b (by simp [hb]))
    intro c hc
    simp only [b64encodeBytes, List.mem_cons] at hc
    rcases hc with rfl | rfl | rfl | rfl | hc
    · exact kept_tbl64 (by omega)
    · exact kept_tbl64 (by omega)
    · exact kept_tbl64 (by omega)
    · exact kept_tbl64 (by omega)
    · exact ih c hc

/-- Decoding inverts encoding on byte lists (used with 64-byte signatures). -/
theorem b64decode_encode (bs : List Nat) (h : ∀ b ∈ bs, b < 256) :
    b64decode (b64encode bs) = .ok bs := by
  have kept := b64encodeBytes_kept bs h
  have hdata : (b64encode bs).data = b64encodeBytes bs := rfl
  unfold b64decode
  rw [hdata, if_pos]
  · rw [List.filter_eq_self.mpr]
    · exact b64decodeChars_encodeBytes bs h
    · intro c hc
      exact (kept c hc).2
  · rw [List.all_eq_true]
    intro c hc
    exact decide_eq_true (kept c hc).1

theorem b64decodeChars_error :
    ∀ l e, b64decodeChars l = .error e → e = PyError.valueError
  | [], e => by simp [b64decodeChars]
  | [c1], e => by simp [b64decodeChars]; intro h; exact h.symm
  | [c1, c2], e => by simp [b64decodeChars]; intro h; exact h.symm
  | [c1, c2, c3], e => by simp [b64decodeChars]; intro h; exact h.symm
  | c1 :: c2 :: c3 :: c4 :: rest, e => by
    simp only [b64decodeChars]
    rcases b64val c1 with _ | v1 <;> rcases b64val c2 with _ | v2 <;>
      simp only [Except.error.injEq]
    · intro h; exact h.symm
    · intro h; exact h.symm
    · intro h; exact h.symm
    · split
      · split
        · simp
        · simp only [Except.error.injEq]; intro h; exact h.symm
      · rcases b64val c3 with _ | v3
        · simp only [Except.error.injEq]; intro h; exact h.symm
        · simp only
          split
          · split
            · simp
            · simp only [Except.error.injEq]; intro h; exact h.symm
          · rcases b64val c4 with _ | v4
            · simp only [Except.error.injEq]; intro h; exact h.symm
            · simp only
              intro h
              rcases hrec : b64decodeChars rest with er | ok2
              · rw [hrec] at h
                simp only [Except.map] at h
                cases h
                exact b64decodeChars_error rest _ hrec
              · rw [hrec] at h
                simp [Except.map] at h

/-- Any error `b64decode` produces is a `ValueError`. -/
theorem b64decode_error (s : String) (e : PyError) (h : b64decode s = .error e) :
    e = PyError.valueError := by
  unfold b64decode at h
  split at h
  · exact b64decodeChars_error _ _ h
  · cases h
    rfl

/-- Claim C1: for every keypair `(priv, pub)` returned by `generate_keypair`
and every envelope, verifying the signature produced by `sign_envelope`
succeeds: `verify_envelope_signature(E, sign_envelope(E, priv), pub)` is
`True` (and signing itself succeeds on the 32-byte generated seed). -/
theorem C1_sign_verify_roundtrip (sch : SigScheme) (env : AINPEnvelope)
    (priv pub : List Nat) (h : GeneratedKeypair sch priv pub) :
    ∃ s, sign_envelope sch env priv = .ok s ∧
      verify_envelope_signature sch env s pub = .ok true := by
  obtain ⟨h32, rfl⟩ := h
  refine ⟨b64encode (sch.sign priv (utf8Bytes (canonicalize_envelope env))), ?_, ?_⟩
  · simp [sign_envelope, h32]
  · have hpk := sch.pubOf_length priv h32
    have hrt := b64decode_encode (sch.sign priv (utf8Bytes (canonicalize_envelope env)))
      (fun b hb => sch.sign_byte priv _ b hb)
    have hv := sch.verify_sign priv (utf8Bytes (canonicalize_envelope env)) h32
    simp [verify_envelope_signature, verifyAttempt, hpk, hrt, hv]

/-- A concrete signature scheme satisfying the PyNaCl interface, used to
exercise the crypto theorems at concrete inputs. -/
def trivialScheme : SigScheme where
  pubOf := id
  sign s m := (s ++ m).map (· % 256)
  verify pk m sg := sg == (pk ++ m).map (· % 256)
  pubOf_length := fun _ h => h
  sign_byte := by
    intro s m b hb
    simp only [List.mem_map] at hb
    obtain ⟨a, _, rfl⟩ := hb
    omega
  verify_sign := by
    intro s m _
    simp

/-- Witness for C1: signing with the all-zero 32-byte seed and verifying
under its derived public key succeeds on a concrete envelope. -/
theorem C1_sign_verify_roundtrip_witness :
    ∃ s, sign_envelope trivialScheme
        { id := "i", trace_id := "t", from_did := "f", to_did := none,
          msg_type := "ACK", ttl := 1, timestamp := 0, sig := "", payload := [] }
        (List.replicate 32 0) = .ok s ∧
      verify_envelope_signature trivialScheme
        { id := "i", trace_id := "t", from_did := "f", to_did := none,
          msg_type := "ACK", ttl := 1, timestamp := 0, sig := "", payload := [] }
        s (List.replicate 32 0) = .ok true :=
  C1_sign_verify_roundtrip trivialScheme _ _ _ ⟨by decide, rfl⟩

/-- Claim C3: `verify_envelope_signature` is total over its declared input
types: it always returns a boolean result (never an uncaught exception), and
every decoding failure — malformed base64, wrong-length public key — as well
as every cryptographic verification failure collapses to the single result
`False`. -/
theorem C3_verify_total (sch : SigScheme) (env : AINPEnvelope) (s : String)
    (pk : List Nat) :
    (∃ b, verify_envelope_signature sch env s pk = .ok b) ∧
    (∀ e, b64decode s = .error e → verify_envelope_signature sch env s pk = .ok false) ∧
    (pk.length ≠ 32 → verify_envelope_signature sch env s pk = .ok false) ∧
    (∀ bs, b64decode s = .ok bs →
      sch.verify pk (utf8Bytes (canonicalize_envelope env)) bs = false →
      verify_envelope_signature sch env s pk = .ok false) := by
  refine ⟨?_, ?_, ?_, ?_⟩
  · unfold verify_envelope_signature verifyAttempt
    by_cases hpk : pk.length = 32
    · rw [if_pos hpk]
      rcases hdec : b64decode s with e | sig
      · have := b64decode_error s e hdec
        subst this
        exact ⟨false, rfl⟩
      · by_cases hv : sch.verify pk (utf8Bytes (canonicalize_envelope env)) sig = true
        · exact ⟨true, by simp [hv]⟩
        · rw [Bool.not_eq_true] at hv
          exact ⟨false, by simp [hv]⟩
    · rw [if_neg hpk]
      exact ⟨false, rfl⟩
  · intro e hdec
    have he := b64decode_error s e hdec
    subst he
    unfold verify_envelope_signature verifyAttempt
    by_cases hpk : pk.length = 32
    · rw [if_pos hpk, hdec]
    · rw [if_neg hpk]
  · intro hpk
    unfold verify_envelope_signature verifyAttempt
    rw [if_neg hpk]
  · intro bs hdec hv
    unfold verify_envelope_signature verifyAttempt
    by_cases hpk : pk.length = 32
    · simp [hpk, hdec, hv]
    · rw [if_neg hpk]

/-- Witness for C3: a malformed base64 signature (length not a multiple of
four) yields `False` rather than an exception. -/
theorem C3_verify_total_witness :
    verify_envelope_signature trivialScheme
      { id := "i", trace_id := "t", from_did := "f", to_did := none,
        msg_type := "ACK", ttl := 1, timestamp := 0, sig := "", payload := [] }
      "AB" (List.replicate 32 0) = Except.ok false :=
  (C3_verify_total trivialScheme _ "AB" (List.replicate 32 0)).2.1
    PyError.valueError rfl

/-- Claim C10: a public key whose length is not 32 makes
`verify_envelope_signature` return `False` — the wrong-length-key failure is
folded into the boolean result, not raised as a distinct error. -/
theorem C10_wrong_key_length_false (sch : SigScheme) (env : AINPEnvelope)
    (s : String) (pk : List Nat) (h : pk.length ≠ 32) :
    verify_envelope_signature sch env s pk = .ok false := by
  unfold verify_envelope_signature verifyAttempt
  rw [if_neg h]

/-- Witness for C10: the empty public key is rejected with `False`. -/
theorem C10_wrong_key_length_false_witness :
    verify_envelope_signature trivialScheme
      { id := "i", trace_id := "t", from_did := "f", to_did := none,
        msg_type := "ACK", ttl := 1, timestamp := 0, sig := "", payload := [] }
      "c2ln" [] = Except.ok false :=
  C10_wrong_key_length_false trivialScheme _ "c2ln" [] (by decide)

/-- `ED25519_MULTICODEC_PREFIX` of `did.py`: the multicodec tag `0xED 0x01`. -/
def ED25519_MULTICODEC : List Nat := [237, 1]

/-- `_BASE58_ALPHABET` of `did.py`: the Bitcoin base58 alphabet. -/
def BASE58_ALPHABET : List Char :=
  "123456789ABCDEFGHJKLMNPQRSTUVWXYZabcdefghijkmnopqrstuvwxyz".data

/-- Character for one base-58 digit. -/
def tbl58 (n : Nat) : Char := BASE58_ALPHABET.getD n '?'

/-- `int.from_bytes(data, 'big')`. -/
def fromBytes (data : List Nat) : Nat := data.foldl (fun acc b => acc * 256 + b) 0

/-- `_encode_base58btc` of `did.py`: count leading zero bytes, read all bytes
as one big-endian integer, emit base-58 digits lowest first (the `while`
loop computes exactly `Nat.digits 58 num`), append one `'1'` per leading zero
byte, reverse the buffer and prefix `'z'`. -/
def _encode_base58btc (data : List Nat) : String :=
  ⟨'z' :: (((Nat.digits 58 (fromBytes data)).map tbl58 ++
      List.replicate (data.takeWhile (· == 0)).length '1').reverse)⟩

/-- `did_from_public_key` of `did.py`: require exactly 32 bytes (else
`ValueError`), then `did:key:` + base58btc of the multicodec-tagged key. -/
def did_from_public_key (public_key : List Nat) : Except PyError String :=
  if public_key.length ≠ 32 then .error .valueError
  else .ok ("did:key:" ++ _encode_base58btc (ED25519_MULTICODEC ++ public_key))

/-- Modelled from the spec (section 4.3, step 2): base58 with the standard
leading-zero rule — one `'1'` per leading `0x00` byte, then the remaining
big-endian value converted to base-58 digits most significant first over the
Bitcoin alphabet. -/
def base58spec (data : List Nat) : List Char :=
  List.replicate (data.takeWhile (· == 0)).length '1' ++
    ((Nat.digits 58 (fromBytes data)).reverse).map tbl58

theorem fromBytes_acc (l : List Nat) :
    ∀ acc, l.foldl (fun acc b => acc * 256 + b) acc =
      acc * 256 ^ l.length + l.foldl (fun acc b => acc * 256 + b) 0 := by
  induction l with
  | nil => intro acc; simp
  | cons b t ih =>
    intro acc
    show t.foldl _ (acc * 256 + b) = acc * 256 ^ (b :: t).length + t.foldl _ (0 * 256 + b)
    rw [ih (acc * 256 + b), ih (0 * 256 + b)]
    ring_nf
    rw [List.length_cons]
    ring

theorem fromBytes_cons (a : Nat) (l : List Nat) :
    fromBytes (a :: l) = a * 256 ^ l.length + fromBytes l := by
  show l.foldl _ (0 * 256 + a) = _
  rw [fromBytes_acc l (0 * 256 + a)]
  simp [fromBytes]

theorem fromBytes_lt : ∀ l : List Nat, (∀ b ∈ l, b < 256) →
    fromBytes l < 256 ^ l.length
  | [], _ => by simp [fromBytes]
  | a :: t, h => by
    have ha : a < 256 := h a (by simp)
    have ih := fromBytes_lt t (fun b hb => h b (by simp [hb]))
    rw [fromBytes_cons, List.length_cons]
    calc a * 256 ^ t.length + fromBytes t
        < (a + 1) * 256 ^ t.length := by
          have := ih
          nlinarith [Nat.pos_pow_of_pos t.length (show 0 < 256 by norm_num)]
      _ ≤ 256 * 256 ^ t.length := Nat.mul_le_mul_right _ (by omega)
      _ = 256 ^ (t.length + 1) := by ring

theorem fromBytes_inj : ∀ l1 l2 : List Nat, l1.length = l2.length →
    (∀ b ∈ l1, b < 256) → (∀ b ∈ l2, b < 256) →
    fromBytes l1 = fromBytes l2 → l1 = l2
  | [], [], _, _, _, _ => rfl
  | [], b :: t, hl, _, _, _ => by simp at hl
  | a :: t, [], hl, _, _, _ => by simp at hl
  | a :: t1, b :: t2, hl, h1, h2, heq => by
    have hlen : t1.length = t2.length := by simpa using hl
    have ha : a < 256 := h1 a (by simp)
    have hb : b < 256 := h2 b (by simp)
    have hr1 := fromBytes_lt t1 (fun x hx => h1 x (by simp [hx]))
    have hr2 := fromBytes_lt t2 (fun x hx => h2 x (by simp [hx]))
    rw [fromBytes_cons, fromBytes_cons, hlen] at heq
    have hpow : 0 < 256 ^ t2.length := Nat.pos_pow_of_pos _ (by norm_num)
    have hab : a = b := by
      have hda : (a * 256 ^ t2.length + fromBytes t1) / 256 ^ t2.length = a := by
        rw [Nat.mul_comm a, Nat.mul_add_div hpow, Nat.div_eq_of_lt (hlen ▸ hr1)]
        omega
      have hdb : (b * 256 ^ t2.length + fromBytes t2) / 256 ^ t2.length = b := by
        rw [Nat.mul_comm b, Nat.mul_add_div hpow, Nat.div_eq_of_lt hr2]
        omega
      rw [← hda, ← hdb, heq]
    subst hab
    have ht : fromBytes t1 = fromBytes t2 := by omega
    rw [fromBytes_inj t1 t2 hlen (fun x hx => h1 x (by simp [hx]))
      (fun x hx => h2 x (by simp [hx])) ht]

theorem fromBytes_tagged_pos (k : List Nat) : 0 < fromBytes (237 :: 1 :: k) := by
  have h237 : (0 : Nat) < 237 := by norm_num
  have : ∀ (l : List Nat) (acc : Nat), 0 < acc →
      0 < l.foldl (fun acc b => acc * 256 + b) acc := by
    intro l
    induction l with
    | nil => intro acc h; simpa using h
    | cons b t ih =>
      intro acc h
      exact ih (acc * 256 + b) (by omega)
  have h2 := this (1 :: k) 237 h237
  simpa [fromBytes, List.foldl] using h2

theorem tbl58_inv : ∀ n, n < 58 → ∀ m, m < 58 → tbl58 n = tbl58 m → n = m := by
  decide

theorem tbl58_ne_one : ∀ d, d < 58 → 0 < d → tbl58 d ≠ '1' := by decide

theorem map_tbl58_inj : ∀ l1 l2 : List Nat, (∀ d ∈ l1, d < 58) →
    (∀ d ∈ l2, d < 58) → l1.map tbl58 = l2.map tbl58 → l1 = l2
  | [], [], _, _, _ => rfl
  | [], b :: t, _, _, h => by simp at h
  | a :: t, [], _, _, h => by simp at h
  | a :: t1, b :: t2, h1, h2, heq => by
    simp only [List.map_cons, List.cons.injEq] at heq
    have hab := tbl58_inv a (h1 a (by simp)) b (h2 b (by simp)) heq.1
    rw [hab, map_tbl58_inj t1 t2 (fun d hd => h1 d (by simp [hd]))
      (fun d hd => h2 d (by simp [hd])) heq.2]

/-- The source's base58 encoder equals the spec's description: leading
`'1'`s for leading zero bytes, then big-endian base-58 digits, behind the
multibase prefix `'z'`. -/
theorem encode_base58btc_eq_spec (data : List Nat) :
    _encode_base58btc data = ⟨'z' :: base58spec data⟩ := by
  unfold _encode_base58btc base58spec
  congr 1
  simp [List.reverse_append, List.map_reverse]

theorem encode_base58btc_data (data : List Nat) :
    (_encode_base58btc data).data = 'z' :: base58spec data := by
  rw [encode_base58btc_eq_spec]

/-- Claim C4: `did_from_public_key` fails with the invalid-key-length
`ValueError` exactly when the input is not 32 bytes, and succeeds on every
32-byte input — the length check is the sole failure mode. -/
theorem C4_did_length_check (k : List Nat) :
    (k.length ≠ 32 → did_from_public_key k = .error .valueError) ∧
    (k.length = 32 → ∃ s, did_from_public_key k = .ok s) := by
  constructor
  · intro h
    unfold did_from_public_key
    rw [if_pos h]
  · intro h
    unfold did_from_public_key
    rw [if_neg (by omega)]
    exact ⟨_, rfl⟩

/-- Witness for C4: a 31-byte key is rejected, a 32-byte key is accepted. -/
theorem C4_did_length_check_witness :
    did_from_public_key (List.replicate 31 0) = .error .valueError ∧
    ∃ s, did_from_public_key (List.replicate 32 0) = .ok s :=
  ⟨(C4_did_length_check (List.replicate 31 0)).1 (by decide),
   (C4_did_length_check (List.replicate 32 0)).2 (by decide)⟩

/-- Claim C5: on a 32-byte key, `did_from_public_key` returns `did:key:`
followed by `'z'` followed by the base58btc encoding (per the spec's
leading-zero rule, `base58spec`) of the 34 bytes `0xED 0x01 ‖ key`; and
since the first tagged byte `0xED` is nonzero, that encoding never starts
with `'1'`. -/
theorem C5_did_is_base58_of_tagged_key (k : List Nat) (hk : k.length = 32) :
    did_from_public_key k = .ok ("did:key:" ++ ⟨'z' :: base58spec (237 :: 1 :: k)⟩) ∧
    (base58spec (237 :: 1 :: k)).head? ≠ some '1' := by
  constructor
  · unfold did_from_public_key
    rw [if_neg (by omega)]
    rw [show ED25519_MULTICODEC ++ k = 237 :: 1 :: k from rfl]
    rw [encode_base58btc_eq_spec]
  · have hpos := fromBytes_tagged_pos k
    have hne : Nat.digits 58 (fromBytes (237 :: 1 :: k)) ≠ [] :=
      Nat.digits_ne_nil_iff_ne_zero.mpr (by omega)
    unfold base58spec
    have hz : ((237 :: 1 :: k).takeWhile (· == 0)).length = 0 := by
      simp [List.takeWhile_cons]
    rw [hz]
    simp only [List.replicate, List.nil_append]
    rcases hrev : (Nat.digits 58 (fromBytes (237 :: 1 :: k))).reverse with _ | ⟨d, t⟩
    · exact absurd (by simpa using congrArg List.reverse hrev) hne
    · have hdig : Nat.digits 58 (fromBytes (237 :: 1 :: k)) = t.reverse ++ [d] := by
        rw [← List.reverse_reverse (Nat.digits 58 (fromBytes (237 :: 1 :: k))), hrev]
        simp
      have hd_mem : d ∈ Nat.digits 58 (fromBytes (237 :: 1 :: k)) := by
        rw [hdig]; simp
      have hd58 : d < 58 := Nat.digits_lt_base (by norm_num) hd_mem
      have hlast := Nat.getLast_digit_ne_zero 58
        (m := fromBytes (237 :: 1 :: k)) (by omega)
      have hgl : (Nat.digits 58 (fromBytes (237 :: 1 :: k))).getLast
          (Nat.digits_ne_nil_iff_ne_zero.mpr (by omega)) = d := by
        simp [hdig, List.getLast_append]
      have hdpos : 0 < d := by
        rw [hgl] at hlast
        omega
      simp only [List.map_cons, List.head?_cons, ne_eq, Option.some.injEq]
      exact tbl58_ne_one d hd58 hdpos

/-- Witness for C5 at the all-zero 32-byte key: the tagged bytes start with
the nonzero `0xED`, so the base58 part has no leading `'1'`. -/
theorem C5_did_is_base58_of_tagged_key_witness :
    did_from_public_key (List.replicate 32 0) =
      .ok ("did:key:" ++ ⟨'z' :: base58spec (237 :: 1 :: List.replicate 32 0)⟩) ∧
    (base58spec (237 :: 1 :: List.replicate 32 0)).head? ≠ some '1' :=
  C5_did_is_base58_of_tagged_key (List.replicate 32 0) (by decide)

/-- Claim C8: `did_from_public_key` is deterministic (pure, stable across
calls) and injective on 32-byte keys: equal DIDs force equal keys. -/
theorem C8_did_injective_deterministic (k1 k2 : List Nat) (h1 : k1.length = 32)
    (h2 : k2.length = 32) (hb1 : ∀ b ∈ k1, b < 256) (hb2 : ∀ b ∈ k2, b < 256) :
    (did_from_public_key k1 = did_from_public_key k2 → k1 = k2) ∧
    did_from_public_key k1 = did_from_public_key k1 := by
  refine ⟨?_, rfl⟩
  intro heq
  unfold did_from_public_key at heq
  rw [if_neg (by omega), if_neg (by omega)] at heq
  simp only [Except.ok.injEq] at heq
  have hdata := congrArg String.data heq
  simp only [String.data_append, encode_base58btc_data] at hdata
  have he : base58spec (ED25519_MULTICODEC ++ k1) = base58spec (ED25519_MULTICODEC ++ k2) := by
    have := List.append_cancel_left hdata
    simpa using this
  rw [show ED25519_MULTICODEC ++ k1 = 237 :: 1 :: k1 from rfl,
      show ED25519_MULTICODEC ++ k2 = 237 :: 1 :: k2 from rfl] at he
  unfold base58spec at he
  have hz1 : ((237 :: 1 :: k1).takeWhile (· == 0)).length = 0 := by
    simp [List.takeWhile_cons]
  have hz2 : ((237 :: 1 :: k2).takeWhile (· == 0)).length = 0 := by
    simp [List.takeWhile_cons]
  rw [hz1, hz2] at he
  simp only [List.replicate, List.nil_append] at he
  have hdigs : (Nat.digits 58 (fromBytes (237 :: 1 :: k1))).reverse =
      (Nat.digits 58 (fromBytes (237 :: 1 :: k2))).reverse := by
    apply map_tbl58_inj _ _ ?_ ?_ he
    · intro d hd
      exact Nat.digits_lt_base (by norm_num) (List.mem_reverse.mp hd)
    · intro d hd
      exact Nat.digits_lt_base (by norm_num) (List.mem_reverse.mp hd)
  have hdg : Nat.digits 58 (fromBytes (237 :: 1 :: k1)) =
      Nat.digits 58 (fromBytes (237 :: 1 :: k2)) := by
    have := congrArg List.reverse hdigs
    simpa using this
  have hnum : fromBytes (237 :: 1 :: k1) = fromBytes (237 :: 1 :: k2) := by
    have := congrArg (Nat.ofDigits 58) hdg
    simpa [Nat.ofDigits_digits] using this
  have htagged : (237 :: 1 :: k1) = (237 :: 1 :: k2) := by
    apply fromBytes_inj _ _ (by simp [h1, h2]) ?_ ?_ hnum
    · intro b hb
      simp only [List.mem_cons] at hb
      rcases hb with rfl | rfl | hb
      · norm_num
      · norm_num
      · exact hb1 b hb
    · intro b hb
      simp only [List.mem_cons] at hb
      rcases hb with rfl | rfl | hb
      · norm_num
      · norm_num
      · exact hb2 b hb
  simpa using htagged

/-- Witness for C8 at the all-zero key. -/
theorem C8_did_injective_deterministic_witness :
    (did_from_public_key (List.replicate 32 0) = did_from_public_key (List.replicate 32 0) →
      List.replicate 32 0 = (List.replicate 32 (0 : Nat))) ∧
    did_from_public_key (List.replicate 32 0) = did_from_public_key (List.replicate 32 0) :=
  C8_did_injective_deterministic (List.replicate 32 0) (List.replicate 32 0)
    (by decide) (by decide) (by decide) (by decide)

theorem char_valid_ranges (c : Char) :
    c.toNat < 55296 ∨ (57344 ≤ c.toNat ∧ c.toNat < 1114112) := by
  have h := c.valid
  unfold UInt32.isValidChar Nat.isValidChar at h
  unfold Char.toNat
  omega

theorem hexDig_inj : ∀ a, a < 16 → ∀ b, b < 16 → hexDig a = hexDig b → a = b := by
  decide

theorem hex4_inj {a b : Nat} (ha : a < 65536) (hb : b < 65536)
    (h : hex4 a = hex4 b) : a = b := by
  unfold hex4 at h
  simp only [List.cons.injEq, and_true] at h
  obtain ⟨h1, h2, h3, h4⟩ := h
  have e1 := hexDig_inj _ (by omega) _ (by omega) h1
  have e2 := hexDig_inj _ (by omega) _ (by omega) h2
  have e3 := hexDig_inj _ (by omega) _ (by omega) h3
  have e4 := hexDig_inj _ (by omega) _ (by omega) h4
  omega

/-- Inverse of the short escape codes. -/
def unescCode (k : Char) : Option Char :=
  if k = quoteC then some quoteC
  else if k = bslashC then some bslashC
  else if k = 'n' then some (Char.ofNat 10)
  else if k = 'r' then some (Char.ofNat 13)
  else if k = 't' then some (Char.ofNat 9)
  else if k = 'b' then some (Char.ofNat 8)
  else if k = 'f' then some (Char.ofNat 12)
  else none

theorem unescCode_escCode {c k : Char} (h : escCode c = some k) :
    unescCode k = some c := by
  unfold escCode at h
  split_ifs at h with h1 h2 h3 h4 h5 h6 h7 <;> injection h with hk <;> subst hk
  · subst h1; decide
  · subst h2; decide
  · have : c = Char.ofNat 10 := char_toNat_inj (by rw [h3]; decide)
    subst this; decide
  · have : c = Char.ofNat 13 := char_toNat_inj (by rw [h4]; decide)
    subst this; decide
  · have : c = Char.ofNat 9 := char_toNat_inj (by rw [h5]; decide)
    subst this; decide
  · have : c = Char.ofNat 8 := char_toNat_inj (by rw [h6]; decide)
    subst this; decide
  · have : c = Char.ofNat 12 := char_toNat_inj (by rw [h7]; decide)
    subst this; decide

theorem escCode_inj {c d k : Char} (hc : escCode c = some k)
    (hd : escCode d = some k) : c = d := by
  have h1 := unescCode_escCode hc
  have h2 := unescCode_escCode hd
  rw [h1] at h2
  injection h2

theorem escCode_ne_u {c k : Char} (h : escCode c = some k) : k ≠ 'u' := by
  unfold escCode at h
  split_ifs at h <;> injection h with hk <;> subst hk <;> decide

theorem escCode_none_ne_quote {c : Char} (h : escCode c = none) : c ≠ quoteC := by
  intro hc
  subst hc
  revert h
  decide

theorem escCode_none_ne_bslash {c : Char} (h : escCode c = none) : c ≠ bslashC := by
  intro hc
  subst hc
  revert h
  decide

theorem hex4_length (n : Nat) : (hex4 n).length = 4 := rfl

theorem char_toNat_lt (c : Char) : c.toNat < 1114112 := by
  rcases char_valid_ranges c with h | h <;> omega

/-- One escaped character is a prefix code: equal concatenations starting
with two escape sequences force the characters and the rests to agree. -/
theorem escChar_append_inj : ∀ (c d : Char) (X Y : List Char),
    escChar c ++ X = escChar d ++ Y → c = d ∧ X = Y := by
  intro c d X Y h
  have hcv := char_toNat_lt c
  have hdv := char_toNat_lt d
  rcases hc : escCode c with _ | kc <;> rcases hd : escCode d with _ | kd <;>
    simp only [escChar, hc, hd] at h
  · -- both unescaped by shortcuts
    by_cases hcp : 32 ≤ c.toNat ∧ c.toNat ≤ 126
    · rw [if_pos hcp] at h
      by_cases hdp : 32 ≤ d.toNat ∧ d.toNat ≤ 126
      · rw [if_pos hdp] at h
        simp only [List.cons_append, List.nil_append, List.cons.injEq] at h
        exact ⟨h.1, h.2⟩
      · rw [if_neg hdp] at h
        exfalso
        by_cases hdu : d.toNat < 65536 <;>
          [rw [if_pos hdu] at h; rw [if_neg hdu] at h] <;>
          simp only [List.cons_append, List.cons.injEq] at h <;>
          exact escCode_none_ne_bslash hc h.1
    · rw [if_neg hcp] at h
      by_cases hdp : 32 ≤ d.toNat ∧ d.toNat ≤ 126
      · rw [if_pos hdp] at h
        exfalso
        by_cases hcu : c.toNat < 65536 <;>
          [rw [if_pos hcu] at h; rw [if_neg hcu] at h] <;>
          simp only [List.cons_append, List.cons.injEq] at h <;>
          exact escCode_none_ne_bslash hd h.1.symm
      · rw [if_neg hdp] at h
        by_cases hcu : c.toNat < 65536 <;> by_cases hdu : d.toNat < 65536
        · -- both \uXXXX
          rw [if_pos hcu, if_pos hdu] at h
          simp only [List.cons_append, List.cons.injEq] at h
          obtain ⟨-, -, h⟩ := h
          obtain ⟨h4, hXY⟩ := List.append_inj h (by simp [hex4_length])
          exact ⟨char_toNat_inj (hex4_inj hcu hdu h4), hXY⟩
        · -- c BMP escape, d astral: the high-surrogate value is not a scalar
          rw [if_pos hcu, if_neg hdu] at h
          exfalso
          simp only [List.cons_append, List.append_assoc, List.cons.injEq] at h
          obtain ⟨-, -, h⟩ := h
          obtain ⟨h4, -⟩ := List.append_inj h (by simp [hex4_length])
          have := hex4_inj hcu (by omega) h4
          rcases char_valid_ranges c with hr | hr <;> omega
        · rw [if_neg hcu, if_pos hdu] at h
          exfalso
          simp only [List.cons_append, List.append_assoc, List.cons.injEq] at h
          obtain ⟨-, -, h⟩ := h
          obtain ⟨h4, -⟩ := List.append_inj h (by simp [hex4_length])
          have := hex4_inj (by omega) hdu h4
          rcases char_valid_ranges d with hr | hr <;> omega
        · -- both astral: equal surrogate pairs
          rw [if_neg hcu, if_neg hdu] at h
          simp only [List.cons_append, List.append_assoc, List.cons.injEq] at h
          obtain ⟨-, -, h⟩ := h
          obtain ⟨hhi, h2⟩ := List.append_inj h (by simp [hex4_length])
          have ehi := hex4_inj (by omega) (by omega) hhi
          simp only [List.cons_append, List.cons.injEq] at h2
          obtain ⟨-, -, h2⟩ := h2
          obtain ⟨hlo, hXY⟩ := List.append_inj h2 (by simp [hex4_length])
          have elo := hex4_inj (by omega) (by omega) hlo
          refine ⟨char_toNat_inj ?_, hXY⟩
          omega
  · -- c unescaped, d shortcut
    exfalso
    by_cases hcp : 32 ≤ c.toNat ∧ c.toNat ≤ 126
    · rw [if_pos hcp] at h
      simp only [List.cons_append, List.nil_append, List.cons.injEq] at h
      exact escCode_none_ne_bslash hc h.1
    · rw [if_neg hcp] at h
      by_cases hcu : c.toNat < 65536 <;>
        [rw [if_pos hcu] at h; rw [if_neg hcu] at h] <;>
        simp only [List.cons_append, List.cons.injEq] at h <;>
        exact escCode_ne_u hd h.2.1.symm
  · -- c shortcut, d unescaped
    exfalso
    by_cases hdp : 32 ≤ d.toNat ∧ d.toNat ≤ 126
    · rw [if_pos hdp] at h
      simp only [List.cons_append, List.nil_append, List.cons.injEq] at h
      exact escCode_none_ne_bslash hd h.1.symm
    · rw [if_neg hdp] at h
      by_cases hdu : d.toNat < 65536 <;>
        [rw [if_pos hdu] at h; rw [if_neg hdu] at h] <;>
        simp only [List.cons_append, List.cons.injEq] at h <;>
        exact escCode_ne_u hc h.2.1
  · -- both shortcut escapes
    simp only [List.cons_append, List.nil_append, List.cons.injEq] at h
    obtain ⟨-, hk, hXY⟩ := h
    subst hk
    exact ⟨escCode_inj hc hd, hXY⟩

theorem escChar_head : ∀ c : Char, ∃ x t, escChar c = x :: t ∧ x ≠ quoteC := by
  intro c
  rcases hc : escCode c with _ | k
  · simp only [escChar, hc]
    by_cases hcp : 32 ≤ c.toNat ∧ c.toNat ≤ 126
    · rw [if_pos hcp]
      exact ⟨c, [], rfl, escCode_none_ne_quote hc⟩
    · rw [if_neg hcp]
      by_cases hcu : c.toNat < 65536
      · rw [if_pos hcu]
        exact ⟨bslashC, _, rfl, by decide⟩
      · rw [if_neg hcu]
        exact ⟨bslashC, _, rfl, by decide⟩
  · simp only [escChar, hc]
    exact ⟨bslashC, _, rfl, by decide⟩

/-- The escaped body of a string literal, read up to the closing quote, is
uniquely decodable. -/
theorem escList_det : ∀ (cs ds X Y : List Char),
    escList cs ++ quoteC :: X = escList ds ++ quoteC :: Y → cs = ds ∧ X = Y
  | [], [], X, Y, h => by
    simp only [escList, List.map_nil, List.flatten_nil, List.nil_append,
      List.cons.injEq] at h
    exact ⟨rfl, h.2⟩
  | [], d :: ds, X, Y, h => by
    exfalso
    obtain ⟨x, t, hx, hxq⟩ := escChar_head d
    simp only [escList, List.map_nil, List.flatten_nil, List.nil_append,
      List.map_cons, List.flatten_cons, hx, List.cons_append, List.append_assoc,
      List.cons.injEq] at h
    exact hxq h.1.symm
  | c :: cs, [], X, Y, h => by
    exfalso
    obtain ⟨x, t, hx, hxq⟩ := escChar_head c
    simp only [escList, List.map_nil, List.flatten_nil, List.nil_append,
      List.map_cons, List.flatten_cons, hx, List.cons_append, List.append_assoc,
      List.cons.injEq] at h
    exact hxq h.1
  | c :: cs, d :: ds, X, Y, h => by
    simp only [escList, List.map_cons, List.flatten_cons, List.append_assoc] at h
    obtain ⟨rfl, h2⟩ := escChar_append_inj c d _ _ h
    obtain ⟨rfl, rfl⟩ := escList_det cs ds X Y h2
    exact ⟨rfl, rfl⟩

/-- JSON string literals are a prefix code. -/
theorem encStr_det (s t : String) (X Y : List Char)
    (h : encStr s ++ X = encStr t ++ Y) : s = t ∧ X = Y := by
  unfold encStr at h
  simp only [List.cons_append, List.append_assoc, List.singleton_append,
    List.cons.injEq] at h
  obtain ⟨-, h⟩ := h
  obtain ⟨hd, hXY⟩ := escList_det _ _ _ _ h
  refine ⟨?_, hXY⟩
  cases s; cases t
  exact congrArg String.mk hd

/-- Decimal digit test. -/
def isDigitC (c : Char) : Bool := 48 ≤ c.toNat && c.toNat ≤ 57

/-- A rest list an integer literal may be followed by: empty or starting with
a non-digit (in the serializer: `,`, `]` or the closing brace). -/
def GoodRest : List Char → Prop
  | [] => True
  | c :: _ => isDigitC c = false

theorem natDigitChar_digit : ∀ d, d < 10 → isDigitC (Nat.digitChar d) = true := by
  decide

theorem natDigitChar_inj : ∀ a, a < 10 → ∀ b, b < 10 →
    Nat.digitChar a = Nat.digitChar b → a = b := by
  decide

theorem natChars_all_digits (n : Nat) : ∀ c ∈ natChars n, isDigitC c = true := by
  unfold natChars
  split
  · intro c hc
    simp only [List.mem_singleton] at hc
    subst hc
    decide
  · intro c hc
    simp only [List.mem_map, List.mem_reverse] at hc
    obtain ⟨d, hd, rfl⟩ := hc
    exact natDigitChar_digit d (Nat.digits_lt_base (by norm_num) hd)

theorem natChars_shape (n : Nat) : ∃ c t, natChars n = c :: t := by
  unfold natChars
  split
  · exact ⟨'0', [], rfl⟩
  · rcases hrev : (Nat.digits 10 n).reverse with _ | ⟨d, t⟩
    · exfalso
      have : Nat.digits 10 n = [] := by
        have := congrArg List.reverse hrev
        simpa using this
      exact Nat.digits_ne_nil_iff_ne_zero.mpr (by assumption) this
    · exact ⟨Nat.digitChar d, t.map Nat.digitChar, by simp⟩

theorem map_digitChar_inj : ∀ l1 l2 : List Nat, (∀ d ∈ l1, d < 10) →
    (∀ d ∈ l2, d < 10) → l1.map Nat.digitChar = l2.map Nat.digitChar → l1 = l2
  | [], [], _, _, _ => rfl
  | [], b :: t, _, _, h => by simp at h
  | a :: t, [], _, _, h => by simp at h
  | a :: t1, b :: t2, h1, h2, heq => by
    simp only [List.map_cons, List.cons.injEq] at heq
    have hab := natDigitChar_inj a (h1 a (by simp)) b (h2 b (by simp)) heq.1
    rw [hab, map_digitChar_inj t1 t2 (fun d hd => h1 d (by simp [hd]))
      (fun d hd => h2 d (by simp [hd])) heq.2]

theorem natChars_inj (m n : Nat) (h : natChars m = natChars n) : m = n := by
  unfold natChars at h
  split at h <;> split at h
  · omega
  · exfalso
    rcases hrev : (Nat.digits 10 n).reverse with _ | ⟨d, t⟩
    · have hnil : Nat.digits 10 n = [] := by
        have := congrArg List.reverse hrev
        simpa using this
      exact Nat.digits_ne_nil_iff_ne_zero.mpr (by assumption) hnil
    · rw [hrev] at h
      simp only [List.map_cons, List.cons.injEq] at h
      obtain ⟨hd0, ht⟩ := h
      have hdmem : d ∈ Nat.digits 10 n := List.mem_reverse.mp (by rw [hrev]; simp)
      have hd10 : d < 10 := Nat.digits_lt_base (by norm_num) hdmem
      have hd : d = 0 := natDigitChar_inj d hd10 0 (by norm_num) (by simpa using hd0.symm)
      have ht0 : t = [] := by
        cases t with
        | nil => rfl
        | cons x xs => simp at ht
      subst hd; subst ht0
      have : Nat.digits 10 n = [0] := by
        have := congrArg List.reverse hrev
        simpa using this
      have := congrArg (Nat.ofDigits 10) this
      rw [Nat.ofDigits_digits] at this
      simp [Nat.ofDigits] at this
      omega
  · exfalso
    rcases hrev : (Nat.digits 10 m).reverse with _ | ⟨d, t⟩
    · have hnil : Nat.digits 10 m = [] := by
        have := congrArg List.reverse hrev
        simpa using this
      exact Nat.digits_ne_nil_iff_ne_zero.mpr (by assumption) hnil
    · rw [hrev] at h
      simp only [List.map_cons, List.cons.injEq] at h
      obtain ⟨hd0, ht⟩ := h
      have hdmem : d ∈ Nat.digits 10 m := List.mem_reverse.mp (by rw [hrev]; simp)
      have hd10 : d < 10 := Nat.digits_lt_base (by norm_num) hdmem
      have hd : d = 0 := natDigitChar_inj d hd10 0 (by norm_num) (by simpa using hd0)
      have ht0 : t = [] := by
        cases t with
        | nil => rfl
        | cons x xs => simp at ht
      subst hd; subst ht0
      have : Nat.digits 10 m = [0] := by
        have := congrArg List.reverse hrev
        simpa using this
      have := congrArg (Nat.ofDigits 10) this
      rw [Nat.ofDigits_digits] at this
      simp [Nat.ofDigits] at this
      omega
  · have hrev : (Nat.digits 10 m).reverse = (Nat.digits 10 n).reverse := by
      apply map_digitChar_inj _ _ ?_ ?_ h
      · intro d hd
        exact Nat.digits_lt_base (by norm_num) (List.mem_reverse.mp hd)
      · intro d hd
        exact Nat.digits_lt_base (by norm_num) (List.mem_reverse.mp hd)
    have hdg : Nat.digits 10 m = Nat.digits 10 n := by
      have := congrArg List.reverse hrev
      simpa using this
    have := congrArg (Nat.ofDigits 10) hdg
    simpa [Nat.ofDigits_digits] using this

/-- Two maximal digit runs followed by non-digits coincide. -/
theorem digitRun_det : ∀ (d1 d2 r1 r2 : List Char),
    (∀ c ∈ d1, isDigitC c = true) → (∀ c ∈ d2, isDigitC c = true) →
    GoodRest r1 → GoodRest r2 → d1 ++ r1 = d2 ++ r2 → d1 = d2 ∧ r1 = r2
  | [], [], r1, r2, _, _, _, _, h => ⟨rfl, by simpa using h⟩
  | [], c :: d2, r1, r2, _, hd2, hr1, _, h => by
    exfalso
    simp only [List.nil_append, List.cons_append] at h
    subst h
    have := hd2 c (by simp)
    simp only [GoodRest] at hr1
    rw [this] at hr1
    cases hr1
  | c :: d1, [], r1, r2, hd1, _, _, hr2, h => by
    exfalso
    simp only [List.nil_append, List.cons_append] at h
    rw [← h] at hr2
    have := hd1 c (by simp)
    simp only [GoodRest] at hr2
    rw [this] at hr2
    cases hr2
  | c :: d1, e :: d2, r1, r2, hd1, hd2, hr1, hr2, h => by
    simp only [List.cons_append, List.cons.injEq] at h
    obtain ⟨rfl, h2⟩ := h
    obtain ⟨rfl, rfl⟩ := digitRun_det d1 d2 r1 r2
      (fun x hx => hd1 x (by simp [hx])) (fun x hx => hd2 x (by simp [hx]))
      hr1 hr2 h2
    exact ⟨rfl, rfl⟩

/-- Integer literals followed by non-digits are uniquely decodable. -/
theorem intChars_det (m n : Int) (r1 r2 : List Char) (hr1 : GoodRest r1)
    (hr2 : GoodRest r2) (h : intChars m ++ r1 = intChars n ++ r2) :
    m = n ∧ r1 = r2 := by
  cases m with
  | ofNat a =>
    cases n with
    | ofNat b =>
      simp only [intChars] at h
      obtain ⟨he, hr⟩ := digitRun_det _ _ _ _ (natChars_all_digits a)
        (natChars_all_digits b) hr1 hr2 h
      exact ⟨by rw [natChars_inj a b he], hr⟩
    | negSucc b =>
      exfalso
      simp only [intChars] at h
      obtain ⟨c, t, hc⟩ := natChars_shape a
      rw [hc] at h
      simp only [List.cons_append, List.cons.injEq] at h
      have := natChars_all_digits a c (by rw [hc]; simp)
      rw [h.1] at this
      revert this
      decide
  | negSucc a =>
    cases n with
    | ofNat b =>
      exfalso
      simp only [intChars] at h
      obtain ⟨c, t, hc⟩ := natChars_shape b
      rw [hc] at h
      simp only [List.cons_append, List.cons.injEq] at h
      have := natChars_all_digits b c (by rw [hc]; simp)
      rw [← h.1] at this
      revert this
      decide
    | negSucc b =>
      simp only [intChars, List.cons_append, List.cons.injEq] at h
      obtain ⟨-, h⟩ := h
      obtain ⟨he, hr⟩ := digitRun_det _ _ _ _ (natChars_all_digits (a + 1))
        (natChars_all_digits (b + 1)) hr1 hr2 h
      have hab := natChars_inj _ _ he
      have : a = b := by omega
      exact ⟨by rw [this], hr⟩

/-- The character a serialized JSON value starts with. -/
def jHead : Json → Char
  | .str _ => quoteC
  | .int (.ofNat n) => (natChars n).headD '0'
  | .int (.negSucc _) => '-'
  | .bool true => 't'
  | .bool false => 'f'
  | .null => 'n'
  | .arr _ => '['
  | .obj _ => lbraceC

theorem dumpsRaw_head : ∀ v : Json, ∃ t, dumpsRaw v = jHead v :: t := by
  intro v
  cases v with
  | str s => exact ⟨_, rfl⟩
  | int n =>
    cases n with
    | ofNat m =>
      obtain ⟨c, t, hc⟩ := natChars_shape m
      exact ⟨t, by simp [dumpsRaw, intChars, jHead, hc]⟩
    | negSucc m => exact ⟨_, rfl⟩
  | bool b => cases b <;> exact ⟨_, rfl⟩
  | null => exact ⟨_, rfl⟩
  | arr xs => exact ⟨_, rfl⟩
  | obj kvs => exact ⟨_, rfl⟩

theorem jHead_int_cases (n : Int) :
    isDigitC (jHead (.int n)) = true ∨ jHead (.int n) = '-' := by
  cases n with
  | ofNat m =>
    left
    obtain ⟨c, t, hc⟩ := natChars_shape m
    have hd := natChars_all_digits m c (by rw [hc]; simp)
    simpa [jHead, hc] using hd
  | negSucc m => exact Or.inr rfl

theorem jHead_cases (v : Json) : isDigitC (jHead v) = true ∨ jHead v = quoteC ∨
    jHead v = '-' ∨ jHead v = 't' ∨ jHead v = 'f' ∨ jHead v = 'n' ∨
    jHead v = '[' ∨ jHead v = lbraceC := by
  cases v with
  | str s => exact Or.inr (Or.inl rfl)
  | int n =>
    rcases jHead_int_cases n with h | h
    · exact Or.inl h
    · exact Or.inr (Or.inr (Or.inl h))
  | bool b =>
    cases b
    · exact Or.inr (Or.inr (Or.inr (Or.inr (Or.inl rfl))))
    · exact Or.inr (Or.inr (Or.inr (Or.inl rfl)))
  | null => exact Or.inr (Or.inr (Or.inr (Or.inr (Or.inr (Or.inl rfl)))))
  | arr xs => exact Or.inr (Or.inr (Or.inr (Or.inr (Or.inr (Or.inr (Or.inl rfl))))))
  | obj kvs => exact Or.inr (Or.inr (Or.inr (Or.inr (Or.inr (Or.inr (Or.inr rfl))))))

theorem head_clash {v w : Json} {r1 r2 : List Char}
    (h : dumpsRaw v ++ r1 = dumpsRaw w ++ r2) : jHead v = jHead w := by
  obtain ⟨t1, h1⟩ := dumpsRaw_head v
  obtain ⟨t2, h2⟩ := dumpsRaw_head w
  rw [h1, h2] at h
  simp only [List.cons_append, List.cons.injEq] at h
  exact h.1

theorem int_head_clash {n : Int} {c : Char} (hdig : isDigitC c = false)
    (hminus : c ≠ '-') (h : jHead (.int n) = c) : False := by
  rcases jHead_int_cases n with hd | hd
  · rw [h, hdig] at hd
    cases hd
  · rw [hd] at h
    exact hminus h.symm

theorem head_ne_rbrack (v : Json) : (']' : Char) ≠ jHead v := by
  intro he
  rcases jHead_cases v with hd | hd | hd | hd | hd | hd | hd | hd
  · rw [← he] at hd
    revert hd
    decide
  all_goals rw [hd] at he
  all_goals revert he
  all_goals decide

theorem head_ne_rbrace (v : Json) : rbraceC ≠ jHead v := by
  intro he
  rcases jHead_cases v with hd | hd | hd | hd | hd | hd | hd | hd
  · rw [← he] at hd
    revert hd
    decide
  all_goals rw [hd] at he
  all_goals revert he
  all_goals decide

mutual

/-- Size of a JSON value, used as the induction fuel for determinism. -/
def sizeJ : Json → Nat
  | .str _ => 1
  | .int _ => 1
  | .bool _ => 1
  | .null => 1
  | .arr xs => sizeA xs + 1
  | .obj kvs => sizeO kvs + 1

/-- Size of an array body. -/
def sizeA : List Json → Nat
  | [] => 1
  | x :: xs => sizeJ x + sizeA xs

/-- Size of an object body. -/
def sizeO : List (String × Json) → Nat
  | [] => 1
  | (_, v) :: kvs => sizeJ v + sizeO kvs

end

theorem sizeJ_pos (v : Json) : 1 ≤ sizeJ v := by
  cases v <;> simp [sizeJ]

theorem sizeA_pos (xs : List Json) : 1 ≤ sizeA xs := by
  cases xs with
  | nil => simp [sizeA]
  | cons x t =>
    have := sizeJ_pos x
    simp [sizeA]
    omega

theorem sizeO_pos (kvs : List (String × Json)) : 1 ≤ sizeO kvs := by
  cases kvs with
  | nil => simp [sizeO]
  | cons p t =>
    obtain ⟨k, v⟩ := p
    have := sizeJ_pos v
    simp [sizeO]
    omega

/-- What follows the first element inside an array body. -/
def arrTail : List Json → List Char
  | [] => []
  | y :: ys => ',' :: dumpsArr (y :: ys)

theorem dumpsArr_cons (y : Json) (ys : List Json) :
    dumpsArr (y :: ys) = dumpsRaw y ++ arrTail ys := by
  cases ys <;> simp [dumpsArr, arrTail]

/-- What follows the first entry inside an object body. -/
def objTail : List (String × Json) → List Char
  | [] => []
  | p :: kvs => ',' :: dumpsObj (p :: kvs)

theorem dumpsObj_cons (k : String) (v : Json) (kvs : List (String × Json)) :
    dumpsObj ((k, v) :: kvs) = encStr k ++ ':' :: (dumpsRaw v ++ objTail kvs) := by
  cases kvs <;> simp [dumpsObj, objTail]

theorem goodRest_arrTail (xs : List Json) (r : List Char) :
    GoodRest (arrTail xs ++ ']' :: r) := by
  cases xs with
  | nil =>
    show isDigitC ']' = false
    decide
  | cons y ys =>
    show isDigitC ',' = false
    decide

theorem goodRest_objTail (kvs : List (String × Json)) (r : List Char) :
    GoodRest (objTail kvs ++ rbraceC :: r) := by
  cases kvs with
  | nil =>
    show isDigitC rbraceC = false
    decide
  | cons p kvs2 =>
    show isDigitC ',' = false
    decide

/-- Compact JSON serialization is uniquely decodable: at every fuel level,
two serialized values (or array/object bodies) followed by admissible rests
coincide only when the values and the rests coincide. -/
theorem detAll : ∀ N : Nat,
    (∀ v w : Json, ∀ r1 r2 : List Char, sizeJ v ≤ N → GoodRest r1 → GoodRest r2 →
      dumpsRaw v ++ r1 = dumpsRaw w ++ r2 → v = w ∧ r1 = r2) ∧
    (∀ xs ys : List Json, ∀ r1 r2 : List Char, sizeA xs ≤ N → GoodRest r1 → GoodRest r2 →
      dumpsArr xs ++ ']' :: r1 = dumpsArr ys ++ ']' :: r2 → xs = ys ∧ r1 = r2) ∧
    (∀ kvs kws : List (String × Json), ∀ r1 r2 : List Char, sizeO kvs ≤ N →
      GoodRest r1 → GoodRest r2 →
      dumpsObj kvs ++ rbraceC :: r1 = dumpsObj kws ++ rbraceC :: r2 →
      kvs = kws ∧ r1 = r2) := by
  intro N
  induction N with
  | zero =>
    refine ⟨?_, ?_, ?_⟩
    · intro v _ _ _ hs
      have := sizeJ_pos v
      omega
    · intro xs _ _ _ hs
      have := sizeA_pos xs
      omega
    · intro kvs _ _ _ hs
      have := sizeO_pos kvs
      omega
  | succ N ih =>
    obtain ⟨ihJ, ihA, ihO⟩ := ih
    refine ⟨?_, ?_, ?_⟩
    · intro v w r1 r2 hs hr1 hr2 h
      cases v with
      | str s =>
        cases w with
        | str t =>
          obtain ⟨hst, hr⟩ := encStr_det s t _ _ h
          exact ⟨by rw [hst], hr⟩
        | int n =>
          exfalso
          have hc := head_clash h
          simp only [jHead] at hc
          exact int_head_clash (by decide) (by decide) hc.symm
        | bool b =>
          exfalso
          cases b
          all_goals have hc := head_clash h
          all_goals simp only [jHead] at hc
          all_goals revert hc
          all_goals decide
        | null =>
          exfalso
          have hc := head_clash h
          simp only [jHead] at hc
          revert hc
          decide
        | arr ys =>
          exfalso
          have hc := head_clash h
          simp only [jHead] at hc
          revert hc
          decide
        | obj kws =>
          exfalso
          have hc := head_clash h
          simp only [jHead] at hc
          revert hc
          decide
      | int n =>
        cases w with
        | str t =>
          exfalso
          have hc := head_clash h
          simp only [jHead] at hc
          exact int_head_clash (by decide) (by decide) hc
        | int n2 =>
          obtain ⟨he, hr⟩ := intChars_det n n2 r1 r2 hr1 hr2 h
          exact ⟨by rw [he], hr⟩
        | bool b =>
          exfalso
          cases b
          all_goals have hc := head_clash h
          all_goals simp only [jHead] at hc
          all_goals exact int_head_clash (by decide) (by decide) hc
        | null =>
          exfalso
          have hc := head_clash h
          simp only [jHead] at hc
          exact int_head_clash (by decide) (by decide) hc
        | arr ys =>
          exfalso
          have hc := head_clash h
          simp only [jHead] at hc
          exact int_head_clash (by decide) (by decide) hc
        | obj kws =>
          exfalso
          have hc := head_clash h
          simp only [jHead] at hc
          exact int_head_clash (by decide) (by decide) hc
      | bool b =>
        cases w with
        | str t =>
          exfalso
          cases b
          all_goals have hc := head_clash h
          all_goals simp only [jHead] at hc
          all_goals revert hc
          all_goals decide
        | int n =>
          exfalso
          cases b
          all_goals have hc := head_clash h
          all_goals simp only [jHead] at hc
          all_goals exact int_head_clash (by decide) (by decide) hc.symm
        | bool b2 =>
          cases b <;> cases b2 <;> simp only [dumpsRaw, if_true, if_false,
            List.cons_append, List.nil_append, List.cons.injEq] at h <;>
            simp_all
        | null =>
          exfalso
          cases b
          all_goals have hc := head_clash h
          all_goals simp only [jHead] at hc
          all_goals revert hc
          all_goals decide
        | arr ys =>
          exfalso
          cases b
          all_goals have hc := head_clash h
          all_goals simp only [jHead] at hc
          all_goals revert hc
          all_goals decide
        | obj kws =>
          exfalso
          cases b
          all_goals have hc := head_clash h
          all_goals simp only [jHead] at hc
          all_goals revert hc
          all_goals decide
      | null =>
        cases w with
        | str t =>
          exfalso
          have hc := head_clash h
          simp only [jHead] at hc
          revert hc
          decide
        | int n =>
          exfalso
          have hc := head_clash h
          simp only [jHead] at hc
          exact int_head_clash (by decide) (by decide) hc.symm
        | bool b =>
          exfalso
          cases b
          all_goals have hc := head_clash h
          all_goals simp only [jHead] at hc
          all_goals revert hc
          all_goals decide
        | null =>
          simp only [dumpsRaw, List.cons_append, List.nil_append,
            List.cons.injEq] at h
          simp_all
        | arr ys =>
          exfalso
          have hc := head_clash h
          simp only [jHead] at hc
          revert hc
          decide
        | obj kws =>
          exfalso
          have hc := head_clash h
          simp only [jHead] at hc
          revert hc
          decide
      | arr xs =>
        cases w with
        | str t =>
          exfalso
          have hc := head_clash h
          simp only [jHead] at hc
          revert hc
          decide
        | int n =>
          exfalso
          have hc := head_clash h
          simp only [jHead] at hc
          exact int_head_clash (by decide) (by decide) hc.symm
        | bool b =>
          exfalso
          cases b
          all_goals have hc := head_clash h
          all_goals simp only [jHead] at hc
          all_goals revert hc
          all_goals decide
        | null =>
          exfalso
          have hc := head_clash h
          simp only [jHead] at hc
          revert hc
          decide
        | arr ys =>
          simp only [dumpsRaw, List.cons_append, List.append_assoc,
            List.singleton_append, List.cons.injEq] at h
          have hsz : sizeA xs ≤ N := by
            simp only [sizeJ] at hs
            omega
          obtain ⟨hxy, hr⟩ := ihA xs ys r1 r2 hsz hr1 hr2 h.2
          exact ⟨by rw [hxy], hr⟩
        | obj kws =>
          exfalso
          have hc := head_clash h
          simp only [jHead] at hc
          revert hc
          decide
      | obj kvs =>
        cases w with
        | str t =>
          exfalso
          have hc := head_clash h
          simp only [jHead] at hc
          revert hc
          decide
        | int n =>
          exfalso
          have hc := head_clash h
          simp only [jHead] at hc
          exact int_head_clash (by decide) (by decide) hc.symm
        | bool b =>
          exfalso
          cases b
          all_goals have hc := head_clash h
          all_goals simp only [jHead] at hc
          all_goals revert hc
          all_goals decide
        | null =>
          exfalso
          have hc := head_clash h
          simp only [jHead] at hc
          revert hc
          decide
        | arr ys =>
          exfalso
          have hc := head_clash h
          simp only [jHead] at hc
          revert hc
          decide
        | obj kws =>
          simp only [dumpsRaw, List.cons_append, List.append_assoc,
            List.singleton_append, List.cons.injEq] at h
          have hsz : sizeO kvs ≤ N := by
            simp only [sizeJ] at hs
            omega
          obtain ⟨hxy, hr⟩ := ihO kvs kws r1 r2 hsz hr1 hr2 h.2
          exact ⟨by rw [hxy], hr⟩
    · intro xs ys r1 r2 hs hr1 hr2 h
      cases xs with
      | nil =>
        cases ys with
        | nil =>
          simp only [dumpsArr, List.nil_append, List.cons.injEq] at h
          exact ⟨rfl, h.2⟩
        | cons y ys2 =>
          exfalso
          rw [dumpsArr_cons] at h
          obtain ⟨t, ht⟩ := dumpsRaw_head y
          rw [ht] at h
          simp only [dumpsArr, List.nil_append, List.cons_append, List.append_assoc,
            List.cons.injEq] at h
          exact head_ne_rbrack y h.1
      | cons x xs2 =>
        cases ys with
        | nil =>
          exfalso
          rw [dumpsArr_cons] at h
          obtain ⟨t, ht⟩ := dumpsRaw_head x
          rw [ht] at h
          simp only [dumpsArr, List.nil_append, List.cons_append, List.append_assoc,
            List.cons.injEq] at h
          exact head_ne_rbrack x h.1.symm
        | cons y ys2 =>
          rw [dumpsArr_cons, dumpsArr_cons] at h
          rw [List.append_assoc, List.append_assoc] at h
          have hszx : sizeJ x ≤ N := by
            have := sizeA_pos xs2
            simp only [sizeA] at hs
            omega
          obtain ⟨rfl, h2⟩ := ihJ x y _ _ hszx (goodRest_arrTail _ _)
            (goodRest_arrTail _ _) h
          have hsz2 : sizeA xs2 ≤ N := by
            have := sizeJ_pos x
            simp only [sizeA] at hs
            omega
          cases xs2 with
          | nil =>
            cases ys2 with
            | nil =>
              simp only [arrTail, List.nil_append, List.cons.injEq] at h2
              exact ⟨rfl, h2.2⟩
            | cons z zs =>
              exfalso
              simp only [arrTail, List.nil_append, List.cons_append,
                List.cons.injEq] at h2
              have := h2.1
              revert this
              decide
          | cons z zs =>
            cases ys2 with
            | nil =>
              exfalso
              simp only [arrTail, List.nil_append, List.cons_append,
                List.cons.injEq] at h2
              have := h2.1
              revert this
              decide
            | cons u us =>
              simp only [arrTail, List.cons_append, List.cons.injEq] at h2
              obtain ⟨-, h2⟩ := h2
              obtain ⟨he, hr⟩ := ihA _ _ _ _ hsz2 hr1 hr2 h2
              exact ⟨by rw [he], hr⟩
    · intro kvs kws r1 r2 hs hr1 hr2 h
      cases kvs with
      | nil =>
        cases kws with
        | nil =>
          simp only [dumpsObj, List.nil_append, List.cons.injEq] at h
          exact ⟨rfl, h.2⟩
        | cons p kws2 =>
          exfalso
          obtain ⟨k2, v2⟩ := p
          rw [dumpsObj_cons] at h
          simp only [dumpsObj, encStr, List.nil_append, List.cons_append,
            List.append_assoc, List.cons.injEq] at h
          have := h.1
          revert this
          decide
      | cons p kvs2 =>
        obtain ⟨k1, v1⟩ := p
        cases kws with
        | nil =>
          exfalso
          rw [dumpsObj_cons] at h
          simp only [dumpsObj, encStr, List.nil_append, List.cons_append,
            List.append_assoc, List.cons.injEq] at h
          have := h.1
          revert this
          decide
        | cons q kws2 =>
          obtain ⟨k2, v2⟩ := q
          rw [dumpsObj_cons, dumpsObj_cons] at h
          rw [List.append_assoc, List.append_assoc] at h
          obtain ⟨rfl, h2⟩ := encStr_det k1 k2 _ _ h
          simp only [List.cons_append, List.cons.injEq] at h2
          obtain ⟨-, h2⟩ := h2
          rw [List.append_assoc, List.append_assoc] at h2
          have hszv : sizeJ v1 ≤ N := by
            have := sizeO_pos kvs2
            simp only [sizeO] at hs
            omega
          obtain ⟨rfl, h3⟩ := ihJ v1 v2 _ _ hszv (goodRest_objTail _ _)
            (goodRest_objTail _ _) h2
          have hsz2 : sizeO kvs2 ≤ N := by
            have := sizeJ_pos v1
            simp only [sizeO] at hs
            omega
          cases kvs2 with
          | nil =>
            cases kws2 with
            | nil =>
              simp only [objTail, List.nil_append, List.cons.injEq] at h3
              exact ⟨rfl, h3.2⟩
            | cons z zs =>
              exfalso
              simp only [objTail, List.nil_append, List.cons_append,
                List.cons.injEq] at h3
              have := h3.1
              revert this
              decide
          | cons z zs =>
            cases kws2 with
            | nil =>
              exfalso
              simp only [objTail, List.nil_append, List.cons_append,
                List.cons.injEq] at h3
              have := h3.1
              revert this
              decide
            | cons u us =>
              simp only [objTail, List.cons_append, List.cons.injEq] at h3
              obtain ⟨-, h3⟩ := h3
              obtain ⟨he, hr⟩ := ihO _ _ _ _ hsz2 hr1 hr2 h3
              exact ⟨by rw [he], hr⟩

/-- Strictly increasing keys (the order Python dict items appear in once
sorted; a dict's keys are unique, so the strictness is no restriction). -/
def KeysSorted (kvs : List (String × Json)) : Prop :=
  List.Chain' (fun a b => pyStrLt a.1 b.1 = true) kvs

/-- The canonical representation of a Python dict value: every object, at
every nesting depth, carries its entries with strictly increasing keys. -/
inductive JsonWF : Json → Prop where
  | str (s : String) : JsonWF (.str s)
  | int (n : Int) : JsonWF (.int n)
  | bool (b : Bool) : JsonWF (.bool b)
  | null : JsonWF .null
  | arr (xs : List Json) (h : ∀ x ∈ xs, JsonWF x) : JsonWF (.arr xs)
  | obj (kvs : List (String × Json)) (hsort : KeysSorted kvs)
      (h : ∀ kv ∈ kvs, JsonWF kv.2) : JsonWF (.obj kvs)

theorem pyStrLt_le {s t : String} (h : pyStrLt s t = true) : pyStrLe s t = true :=
  lexLt_le _ _ h

theorem sortKV_sorted (l : List (String × Json)) (h : KeysSorted l) :
    sortKV pyStrLe l = l := by
  induction l with
  | nil => rfl
  | cons p ps ih =>
    have hps : KeysSorted ps := h.tail
    rw [sortKV, ih hps]
    cases ps with
    | nil => rfl
    | cons q qs =>
      have hpq : pyStrLt p.1 q.1 = true := h.rel_head
      simp [insertKV, pyStrLt_le hpq]

theorem sortJsonArr_eq (cmp : String → String → Bool) (xs : List Json)
    (h : ∀ x ∈ xs, sortJson cmp x = x) : sortJsonArr cmp xs = xs := by
  induction xs with
  | nil => rfl
  | cons x t ih =>
    rw [sortJsonArr, h x (by simp), ih (fun y hy => h y (by simp [hy]))]

theorem sortJsonObj_eq (cmp : String → String → Bool) (kvs : List (String × Json))
    (h : ∀ kv ∈ kvs, sortJson cmp kv.2 = kv.2) : sortJsonObj cmp kvs = kvs := by
  induction kvs with
  | nil => rfl
  | cons p t ih =>
    obtain ⟨k, v⟩ := p
    rw [sortJsonObj, h (k, v) (by simp), ih (fun q hq => h q (by simp [hq]))]

/-- A well-formed value is a fixed point of the recursive key sort. -/
theorem sortJson_wf (j : Json) (h : JsonWF j) : sortJson pyStrLe j = j := by
  induction h with
  | str s => rfl
  | int n => rfl
  | bool b => rfl
  | null => rfl
  | arr xs h ih =>
    rw [sortJson, sortJsonArr_eq pyStrLe xs ih]
  | obj kvs hsort h ih =>
    rw [sortJson, sortJsonObj_eq pyStrLe kvs ih, sortKV_sorted kvs hsort]

/-- The canonical JSON value of an envelope under a well-formed payload:
the eight non-`sig` fields in sorted key order, payload untouched. -/
theorem canonical_json_of_envelope (e : AINPEnvelope)
    (hWF : JsonWF (.obj e.payload)) :
    sortJson pyStrLe (.obj (removeKey (envDictFull e) "sig")) =
    .obj [("from_did", .str e.from_did), ("id", .str e.id),
      ("msg_type", .str e.msg_type), ("payload", .obj e.payload),
      ("timestamp", .int e.timestamp), ("to_did", optJson e.to_did),
      ("trace_id", .str e.trace_id), ("ttl", .int e.ttl)] := by
  have h1 : sortJsonObj pyStrLe (removeKey (envDictFull e) "sig") =
      [("id", .str e.id), ("trace_id", .str e.trace_id),
       ("from_did", .str e.from_did), ("to_did", optJson e.to_did),
       ("msg_type", .str e.msg_type), ("ttl", .int e.ttl),
       ("timestamp", .int e.timestamp),
       ("payload", sortJson pyStrLe (.obj e.payload))] := by
    cases hto : e.to_did <;> simp only [envDictFull, hto] <;> rfl
  rw [show sortJson pyStrLe (.obj (removeKey (envDictFull e) "sig")) =
    .obj (sortKV pyStrLe (sortJsonObj pyStrLe (removeKey (envDictFull e) "sig")))
    from rfl]
  rw [h1, sortJson_wf _ hWF]
  rfl

theorem optJson_inj {a b : Option String} (h : optJson a = optJson b) : a = b := by
  cases a <;> cases b <;> simp [optJson] at h ⊢
  exact h

/-- Claim C7: canonicalization is injective on non-`sig` content. Two
envelopes (with payloads in the canonical dict representation) that
canonicalize identically agree on every field other than `sig`;
contrapositively, a difference in any non-`sig` field changes the canonical
string. -/
theorem C7_canonicalize_injective (e1 e2 : AINPEnvelope)
    (h1 : JsonWF (.obj e1.payload)) (h2 : JsonWF (.obj e2.payload))
    (heq : canonicalize_envelope e1 = canonicalize_envelope e2) :
    e1.id = e2.id ∧ e1.trace_id = e2.trace_id ∧ e1.from_did = e2.from_did ∧
    e1.to_did = e2.to_did ∧ e1.msg_type = e2.msg_type ∧ e1.ttl = e2.ttl ∧
    e1.timestamp = e2.timestamp ∧ e1.payload = e2.payload := by
  have hdump : dumpsRaw (sortJson pyStrLe (.obj (removeKey (envDictFull e1) "sig"))) =
      dumpsRaw (sortJson pyStrLe (.obj (removeKey (envDictFull e2) "sig"))) :=
    congrArg String.data heq
  rw [canonical_json_of_envelope e1 h1, canonical_json_of_envelope e2 h2] at hdump
  have hj := ((detAll (sizeJ (.obj
      [("from_did", .str e1.from_did), ("id", .str e1.id),
       ("msg_type", .str e1.msg_type), ("payload", .obj e1.payload),
       ("timestamp", .int e1.timestamp), ("to_did", optJson e1.to_did),
       ("trace_id", .str e1.trace_id), ("ttl", .int e1.ttl)]))).1
    _ _ [] [] (Nat.le_refl _) trivial trivial (by simpa using hdump)).1
  simp only [Json.obj.injEq, List.cons.injEq, Prod.mk.injEq, true_and,
    and_true, Json.str.injEq, Json.int.injEq] at hj
  obtain ⟨hfrom, hid, hmsg, hpl, hts, hto, htr, httl⟩ := hj
  exact ⟨hid, htr, hfrom, optJson_inj hto, hmsg, httl, hts, hpl⟩

/-- Witness for C7 at two (equal) concrete envelopes with an empty payload. -/
theorem C7_canonicalize_injective_witness :
    ({ id := "a", trace_id := "b", from_did := "c", to_did := none,
       msg_type := "INTENT", ttl := 9, timestamp := 2, sig := "s1",
       payload := [] } : AINPEnvelope).id =
    ({ id := "a", trace_id := "b", from_did := "c", to_did := none,
       msg_type := "INTENT", ttl := 9, timestamp := 2, sig := "s2",
       payload := [] } : AINPEnvelope).id :=
  (C7_canonicalize_injective _ _
    (JsonWF.obj [] (by simp [KeysSorted]) (by simp))
    (JsonWF.obj [] (by simp [KeysSorted]) (by simp)) rfl).1

/-- A minimal heap of Python dict objects: a memory of field mappings and a
bump allocator.  This makes the object effects of `canonicalize_envelope`
statable: `env.__dict__.copy()` allocates a fresh dict and `d.pop('sig',
None)` mutates only that copy. -/
structure PyHeap where
  mem : Nat → Option (List (String × Json))
  next : Nat

/-- Read a dict object. -/
def heapGet (h : PyHeap) (a : Nat) : Option (List (String × Json)) := h.mem a

/-- Overwrite a dict object in place. -/
def heapSet (h : PyHeap) (a : Nat) (d : List (String × Json)) : PyHeap :=
  ⟨fun b => if b = a then some d else h.mem b, h.next⟩

/-- Allocate a fresh dict object. -/
def heapAlloc (h : PyHeap) (d : List (String × Json)) : PyHeap × Nat :=
  (⟨fun b => if b = h.next then some d else h.mem b, h.next + 1⟩, h.next)

/-- `canonicalize_envelope` as a heap procedure:
`d = env.__dict__.copy()` (allocate a fresh dict with the same entries),
`d.pop('sig', None)` (mutate the copy), `json.dumps(d, separators=(',', ':'),
sort_keys=True)` (read the copy).  Returns the heap after the call and the
canonical string. -/
def canonicalizeProc (h : PyHeap) (envA : Nat) : Option (PyHeap × String) :=
  match heapGet h envA with
  | none => none
  | some d =>
    match heapGet (heapSet (heapAlloc h d).1 (heapAlloc h d).2 (removeKey d "sig"))
        (heapAlloc h d).2 with
    | none => none
    | some d2 =>
      some (heapSet (heapAlloc h d).1 (heapAlloc h d).2 (removeKey d "sig"),
        ⟨dumps pyStrLe (.obj d2)⟩)

/-- `sign_envelope` as a heap procedure: canonicalization is the only step
that touches objects; key handling, signing and base64 are pure. -/
def signProc (sch : SigScheme) (h : PyHeap) (envA : Nat) (priv : List Nat) :
    Option (PyHeap × Except PyError String) :=
  match canonicalizeProc h envA with
  | none => none
  | some (h2, msg) =>
    some (h2, if priv.length = 32
      then .ok (b64encode (sch.sign priv (utf8Bytes msg)))
      else .error .valueError)

/-- `verify_envelope_signature` as a heap procedure: canonicalize, then the
pure decode/verify pipeline with its `except` clause. -/
def verifyProc (sch : SigScheme) (h : PyHeap) (envA : Nat) (signature : String)
    (pk : List Nat) : Option (PyHeap × Except PyError Bool) :=
  match canonicalizeProc h envA with
  | none => none
  | some (h2, msg) =>
    some (h2,
      match (if pk.length = 32 then
          match b64decode signature with
          | .error e => .error e
          | .ok sig =>
            if sch.verify pk (utf8Bytes msg) sig then .ok true
            else .error .badSignature
        else .error .valueError : Except PyError Bool) with
      | .ok b => .ok b
      | .error .badSignature => .ok false
      | .error .valueError => .ok false
      | .error .typeError => .ok false
      | .error e => .error e)

/-- Claim C9: canonicalization — and therefore signing and verification,
whose only object access is the canonicalization step — leaves every field
of the caller's envelope unchanged, `sig` included: the `sig` removal
happens on the freshly copied dict, never on the envelope itself. -/
theorem C9_envelope_not_mutated (sch : SigScheme) (h : PyHeap) (envA : Nat)
    (priv pk : List Nat) (signature : String) (hlt : envA < h.next) :
    (∀ h2 out, canonicalizeProc h envA = some (h2, out) →
      heapGet h2 envA = heapGet h envA) ∧
    (∀ h2 res, signProc sch h envA priv = some (h2, res) →
      heapGet h2 envA = heapGet h envA) ∧
    (∀ h2 res, verifyProc sch h envA signature pk = some (h2, res) →
      heapGet h2 envA = heapGet h envA) := by
  have hcanon : ∀ h2 out, canonicalizeProc h envA = some (h2, out) →
      heapGet h2 envA = heapGet h envA := by
    intro h2 out hrun
    unfold canonicalizeProc at hrun
    rcases hd : heapGet h envA with _ | d
    · rw [hd] at hrun
      cases hrun
    · rw [hd] at hrun
      have hg : heapGet (heapSet (heapAlloc h d).1 (heapAlloc h d).2
          (removeKey d "sig")) (heapAlloc h d).2 = some (removeKey d "sig") := by
        simp [heapGet, heapSet, heapAlloc]
      simp only [hg, Option.some.injEq, Prod.mk.injEq] at hrun
      obtain ⟨hh2, -⟩ := hrun
      rw [← hh2]
      have hne : envA ≠ h.next := by omega
      simp only [heapGet, heapSet, heapAlloc]
      rw [if_neg hne, if_neg hne]
      exact hd
  refine ⟨hcanon, ?_, ?_⟩
  · intro h2 res hrun
    unfold signProc at hrun
    rcases hc : canonicalizeProc h envA with _ | ⟨hh, msg⟩
    · rw [hc] at hrun
      cases hrun
    · rw [hc] at hrun
      simp only [Option.some.injEq, Prod.mk.injEq] at hrun
      obtain ⟨hh2, -⟩ := hrun
      rw [← hh2]
      exact hcanon hh msg hc
  · intro h2 res hrun
    unfold verifyProc at hrun
    rcases hc : canonicalizeProc h envA with _ | ⟨hh, msg⟩
    · rw [hc] at hrun
      cases hrun
    · rw [hc] at hrun
      simp only [Option.some.injEq, Prod.mk.injEq] at hrun
      obtain ⟨hh2, -⟩ := hrun
      rw [← hh2]
      exact hcanon hh msg hc

/-- A one-object heap for exercising C9: address 0 holds an envelope dict
whose `sig` field is populated. -/
def heap0dict : List (String × Json) := [("sig", Json.str "x"), ("id", Json.str "a")]

/-- The heap holding only that dict. -/
def heap0 : PyHeap := ⟨fun b => if b = 0 then some heap0dict else none, 1⟩

/-- The heap after canonicalization: the fresh copy at address 1 lost its
`sig` entry, the original at address 0 is untouched. -/
def heap0after : PyHeap :=
  heapSet (heapAlloc heap0 heap0dict).1 (heapAlloc heap0 heap0dict).2
    (removeKey heap0dict "sig")

/-- Witness for C9: running the canonicalization procedure on the concrete
heap leaves the envelope object at address 0 exactly as it was. -/
theorem C9_envelope_not_mutated_witness :
    canonicalizeProc heap0 0 =
      some (heap0after, ⟨dumps pyStrLe (.obj (removeKey heap0dict "sig"))⟩) ∧
    heapGet heap0after 0 = heapGet heap0 0 :=
  ⟨rfl, (C9_envelope_not_mutated trivialScheme heap0 0 [] [] "" (by decide)).1
    heap0after _ rfl⟩
